import Mathlib

/-! go-disk-buffer: a memory buffer with a disk overflow

A shallow embedding of `buffer.go` (type `Buffer`, `New`, `Read`, `Write`, `Close`)
together with the parts of the Go standard library it calls:

* `bytes.Buffer` (the head segment) is the list of its unread bytes;
* `*os.File` is an optional handle (`none` is the nil pointer) owning the file's
  bytes and the kernel's file position;
* every call of a `Buffer` method receives an `Env` that says which of the file
  operations of that call fail, and how; each method performs at most one
  operation of each kind, so one environment per call is enough;
* every method also returns the list of file-system operations it performed.

Go `int` and `int64` values are modelled by `Int`; lengths and byte counts are
natural numbers. No arithmetic of the program can leave the 64-bit range unless
the buffer holds more than `2^63` bytes, so wrap-around is not modelled.
-/

namespace DiskBuffer

/-- A Go `byte`. -/
abbrev Byte := UInt8

/-- The Go `error` values the program can see: `io.EOF`, `os.ErrInvalid` (what the
methods of a nil `*os.File` return), and any other error of the storage layer,
identified by a number. -/
inductive GoError where
  | EOF
  | ErrInvalid
  | sys (errno : Nat)
  deriving DecidableEq, Repr

/-- An open `*os.File`: the name it was created under, the bytes of the file and the
current position of the descriptor. -/
structure OSFile where
  name : Nat
  data : List Byte
  pos : Nat
  deriving DecidableEq, Repr

/-- The file-system operations a call performs, in order. Calls on a nil handle
return `os.ErrInvalid` before reaching the file system and are not recorded. -/
inductive FsOp where
  | seek (name : Nat) (offset : Int)
  | read (name : Nat) (len : Nat)
  | write (name : Nat) (p : List Byte)
  | tempFile
  | remove (name : Nat)
  deriving DecidableEq, Repr

/-- What the storage layer does during one call of a `Buffer` method.
`seekErr`, `removeErr`: the error of `Seek` / `os.Remove`, if it fails.
`readFault`, `writeFault`: if the file read / write fails, the number of bytes it
still transfers and the error it reports.
`tempFile`: the error of `ioutil.TempFile`, or the name of the file it creates. -/
structure Env where
  seekErr : Option GoError
  readFault : Option (Nat × GoError)
  writeFault : Option (Nat × GoError)
  tempFile : Except GoError Nat
  removeErr : Option GoError

/-- The environment in which every file operation succeeds; a temporary file, if one
is created, gets the name `name`. -/
def Env.ok (name : Nat) : Env :=
  ⟨none, none, none, Except.ok name, none⟩

/-- Every file operation of the call succeeds. -/
def Env.Succeeds (env : Env) : Prop :=
  ∃ name, env = Env.ok name

/-! ## `bytes.Buffer` -/

/-- `bytes.Buffer.Read`: on an empty buffer `(0, nil)` for an empty destination and
`(0, io.EOF)` otherwise; else copy `min (len p) (Len())` bytes to the front of `p`
and drop them from the buffer. Returns the count, the error, the destination after
the call and the buffer after the call. -/
def bytesRead (head p : List Byte) : Nat × Option GoError × List Byte × List Byte :=
  if head.length = 0 then
    if p.length = 0 then (0, none, p, head) else (0, some GoError.EOF, p, head)
  else
    let n := min p.length head.length
    (n, none, head.take n ++ p.drop n, head.drop n)

/-- `bytes.Buffer.Write`: append, return `(len p, nil)`. -/
def bytesWrite (head p : List Byte) : Nat × List Byte :=
  (p.length, head ++ p)

/-! ## `os.File` -/

/-- The bytes of a file after `p` is written at position `pos`: bytes before `pos`
are kept (a gap past the end reads as zeros), `p` overwrites what was there, and
any bytes after the written range are kept. -/
def writeAt (data : List Byte) (pos : Nat) (p : List Byte) : List Byte :=
  data.take pos ++ List.replicate (pos - data.length) 0 ++ p ++ data.drop (pos + p.length)

/-- `(*os.File).Seek(offset, 0)`: returns the new handle, the returned offset and the
error. A nil handle gives `(0, os.ErrInvalid)`; a failing seek gives `(0, err)`; a
negative offset is rejected with `EINVAL`. -/
def fileSeek (f : Option OSFile) (offset : Int) (fault : Option GoError) :
    Option OSFile × Int × Option GoError × List FsOp :=
  match f with
  | none => (none, 0, some GoError.ErrInvalid, [])
  | some f =>
    match fault with
    | some e => (some f, 0, some e, [FsOp.seek f.name offset])
    | none =>
      if offset < 0 then (some f, 0, some (GoError.sys 22), [FsOp.seek f.name offset])
      else (some { f with pos := offset.toNat }, offset, none, [FsOp.seek f.name offset])

/-- `(*os.File).Read(p)`: returns the new handle, the count, the error, the
destination after the call and the operations performed. A nil handle gives
`(0, os.ErrInvalid)`; an empty destination gives `(0, nil)` without a system call;
at the end of the file the result is `(0, io.EOF)`; otherwise
`min (len p) (bytes left)` bytes are copied and the position advances. A faulty read
transfers at most the number of bytes of the fault and reports its error. -/
def fileRead (f : Option OSFile) (p : List Byte) (fault : Option (Nat × GoError)) :
    Option OSFile × Nat × Option GoError × List Byte × List FsOp :=
  match f with
  | none => (none, 0, some GoError.ErrInvalid, p, [])
  | some f =>
    if p.length = 0 then (some f, 0, none, p, [])
    else
      let avail := f.data.length - f.pos
      match fault with
      | some (k, e) =>
        let n := min k (min p.length avail)
        (some { f with pos := f.pos + n }, n, some e,
          (f.data.drop f.pos).take n ++ p.drop n, [FsOp.read f.name p.length])
      | none =>
        if avail = 0 then (some f, 0, some GoError.EOF, p, [FsOp.read f.name p.length])
        else
          let n := min p.length avail
          (some { f with pos := f.pos + n }, n, none,
            (f.data.drop f.pos).take n ++ p.drop n, [FsOp.read f.name p.length])

/-- `(*os.File).Write(p)`: returns the new handle, the count, the error and the
operations performed. A nil handle gives `(0, os.ErrInvalid)`; a successful write
stores all of `p` at the current position and advances it; a faulty write stores at
most the number of bytes of the fault and reports its error. -/
def fileWrite (f : Option OSFile) (p : List Byte) (fault : Option (Nat × GoError)) :
    Option OSFile × Nat × Option GoError × List FsOp :=
  match f with
  | none => (none, 0, some GoError.ErrInvalid, [])
  | some f =>
    match fault with
    | some (k, e) =>
      let n := min k p.length
      (some { f with data := writeAt f.data f.pos (p.take n), pos := f.pos + n }, n, some e,
        [FsOp.write f.name p])
    | none =>
      (some { f with data := writeAt f.data f.pos p, pos := f.pos + p.length }, p.length, none,
        [FsOp.write f.name p])

/-- `ioutil.TempFile("", "")`: a new empty file, or `(nil, err)`. -/
def tempFile (r : Except GoError Nat) : Option OSFile × Option GoError × List FsOp :=
  match r with
  | Except.ok name => (some ⟨name, [], 0⟩, none, [FsOp.tempFile])
  | Except.error e => (none, some e, [FsOp.tempFile])

/-- `os.Remove(name)`. -/
def osRemove (name : Nat) (fault : Option GoError) : Option GoError × List FsOp :=
  (fault, [FsOp.remove name])

/-! ## `Buffer` -/

/-- The struct `Buffer`. -/
structure Buffer where
  max : Int
  head : List Byte
  file : Option OSFile
  freadOffset : Int
  fwriteOffset : Int
  fcurrentOffset : Int
  deriving DecidableEq, Repr

/-- `New(memory)`. -/
def New (memory : Int) : Buffer :=
  { max := memory, head := [], file := none,
    freadOffset := 0, fwriteOffset := 0, fcurrentOffset := 0 }

/-- The zero value of `Buffer`. -/
def zeroValue : Buffer := New 0

/-- What `Read` returns: the count, the error, the destination slice after the call,
the buffer after the call and the file operations performed. -/
structure ReadResult where
  n : Nat
  err : Option GoError
  p : List Byte
  buf : Buffer
  ops : List FsOp
  deriving DecidableEq, Repr

/-- What `Write` returns: the count, the error, the buffer after the call and the
file operations performed. -/
structure WriteResult where
  n : Nat
  err : Option GoError
  buf : Buffer
  ops : List FsOp
  deriving DecidableEq, Repr

/-- What `Close` returns: the error, the buffer after the call and the file operations
performed. -/
structure CloseResult where
  err : Option GoError
  buf : Buffer
  ops : List FsOp
  deriving DecidableEq, Repr

/-- `(*Buffer).Read(p)`. -/
def Buffer.Read (b : Buffer) (p : List Byte) (env : Env) : ReadResult :=
  if b.head.length > 0 then
    match bytesRead b.head p with
    | (n, err, p1, head1) =>
      let b1 := { b with head := head1 }
      if err = some GoError.EOF ∧ b.file ≠ none then ⟨n, some GoError.EOF, p1, b1, []⟩
      else ⟨n, err, p1, b1, []⟩
  else
    let afterSeek : Buffer × Option GoError × List FsOp :=
      if b.fcurrentOffset ≠ b.freadOffset then
        match fileSeek b.file b.freadOffset env.seekErr with
        | (f1, r, e, ops) => ({ b with file := f1, fcurrentOffset := r }, e, ops)
      else (b, none, [])
    match afterSeek with
    | (b1, some e, ops1) => ⟨0, some e, p, b1, ops1⟩
    | (b1, none, ops1) =>
      match fileRead b1.file p env.readFault with
      | (f2, _, some e, p2, ops2) => ⟨0, some e, p2, { b1 with file := f2 }, ops1 ++ ops2⟩
      | (f2, n, none, p2, ops2) =>
        ⟨n, none, p2,
          { b1 with file := f2, freadOffset := b1.freadOffset + n,
                    fcurrentOffset := b1.freadOffset + n }, ops1 ++ ops2⟩

/-- `(*Buffer).Write(p)`; `none` is the run-time panic of a slice expression whose
index is out of range: `p[:boundary]` for a negative boundary, `p[boundary:]` for a
boundary beyond `len p` (which the test of the branch before excludes). -/
def Buffer.Write (b : Buffer) (p : List Byte) (env : Env) : Option WriteResult :=
  if b.file ≠ none then
    let afterSeek : Buffer × Option GoError × List FsOp :=
      if b.fcurrentOffset ≠ b.fwriteOffset then
        match fileSeek b.file b.fwriteOffset env.seekErr with
        | (f1, r, e, ops) => ({ b with file := f1, fcurrentOffset := r }, e, ops)
      else (b, none, [])
    match afterSeek with
    | (b1, some e, ops1) => some ⟨0, some e, b1, ops1⟩
    | (b1, none, ops1) =>
      match fileWrite b1.file p env.writeFault with
      | (f2, _, some e, ops2) => some ⟨0, some e, { b1 with file := f2 }, ops1 ++ ops2⟩
      | (f2, n, none, ops2) =>
        some ⟨n, none,
          { b1 with file := f2, fwriteOffset := b1.fwriteOffset + n,
                    fcurrentOffset := b1.fwriteOffset + n }, ops1 ++ ops2⟩
  else if (b.head.length : Int) + p.length ≤ b.max then
    match bytesWrite b.head p with
    | (n, head1) => some ⟨n, none, { b with head := head1 }, []⟩
  else
    let boundary : Int := b.max - b.head.length
    if boundary < 0 ∨ (p.length : Int) < boundary then none
    else
      match bytesWrite b.head (p.take boundary.toNat) with
      | (n1, head1) =>
        match tempFile env.tempFile with
        | (f1, some e, ops1) => some ⟨0, some e, { b with head := head1, file := f1 }, ops1⟩
        | (f1, none, ops1) =>
          match fileWrite f1 (p.drop boundary.toNat) env.writeFault with
          | (f2, _, some e, ops2) =>
            some ⟨0, some e, { b with head := head1, file := f2 }, ops1 ++ ops2⟩
          | (f2, n2, none, ops2) =>
            some ⟨n1 + n2, none,
              { b with head := head1, file := f2, fwriteOffset := n2, fcurrentOffset := n2 },
              ops1 ++ ops2⟩

/-- `(*Buffer).Close()`. -/
def Buffer.Close (b : Buffer) (env : Env) : CloseResult :=
  let b1 := { b with head := [] }
  match b1.file with
  | none => ⟨none, b1, []⟩
  | some f =>
    match osRemove f.name env.removeErr with
    | (some e, ops) => ⟨some e, b1, ops⟩
    | (none, ops) =>
      ⟨none, { b1 with file := none, freadOffset := 0, fwriteOffset := 0, fcurrentOffset := 0 },
        ops⟩

/-! ## Sequences of calls -/

/-- A call of one of the three methods, with its argument. For `read` the argument is
the destination slice as it is before the call. -/
inductive Call where
  | write (p : List Byte)
  | read (p : List Byte)
  | close
  deriving DecidableEq, Repr

/-- The record of one executed call: the call, the buffer before and after it, the
returned count and error, the bytes the caller received (the first `n` bytes of the
destination of a `Read`; empty for the other calls) and the file operations. -/
structure Step where
  call : Call
  pre : Buffer
  post : Buffer
  n : Nat
  err : Option GoError
  out : List Byte
  ops : List FsOp
  deriving DecidableEq, Repr

/-- Execute one call; `none` if it panics. -/
def step (b : Buffer) (c : Call) (env : Env) : Option Step :=
  match c with
  | Call.write p =>
    match b.Write p env with
    | none => none
    | some r => some ⟨c, b, r.buf, r.n, r.err, [], r.ops⟩
  | Call.read p =>
    match b.Read p env with
    | r => some ⟨c, b, r.buf, r.n, r.err, r.p.take r.n, r.ops⟩
  | Call.close =>
    match b.Close env with
    | r => some ⟨c, b, r.buf, 0, r.err, [], r.ops⟩

/-- Execute a sequence of calls, each in its environment, from the buffer `b`; returns
the records of the calls and the final buffer, or `none` if a call panics. -/
def exec (b : Buffer) : List (Call × Env) → Option (List Step × Buffer)
  | [] => some ([], b)
  | (c, env) :: rest =>
    match step b c env with
    | none => none
    | some s =>
      match exec s.post rest with
      | none => none
      | some (ss, b1) => some (s :: ss, b1)

/-- The states reachable from `b0` by calls of `Write`, `Read` and `Close` that do not
panic, whatever the storage layer does. -/
inductive Reachable (b0 : Buffer) : Buffer → Prop where
  | init : Reachable b0 b0
  | step (b : Buffer) (c : Call) (env : Env) (s : Step) :
      Reachable b0 b → DiskBuffer.step b c env = some s → Reachable b0 s.post

/-- The call is a `Write` or a `Read`. -/
def Call.isTransfer : Call → Bool
  | Call.write _ => true
  | Call.read _ => true
  | Call.close => false

/-- The bytes passed to the `Write` calls of a run, in order. -/
def written : List Step → List Byte
  | [] => []
  | s :: ss =>
    match s.call with
    | Call.write p => p ++ written ss
    | _ => written ss

/-- The bytes returned by the `Read` calls of a run, in order. -/
def readOut : List Step → List Byte
  | [] => []
  | s :: ss => s.out ++ readOut ss

/-- The file operations of a run, in order. -/
def opsOf : List Step → List FsOp
  | [] => []
  | s :: ss => s.ops ++ opsOf ss

/-- The bytes a run appended to the head segment, in order: what each `Write` added
behind the bytes the head held before it. -/
def headIn : List Step → List Byte
  | [] => []
  | s :: ss =>
    match s.call with
    | Call.write _ => s.post.head.drop s.pre.head.length ++ headIn ss
    | _ => headIn ss

/-- The bytes a run passed to file writes, in order. -/
def diskIn : List FsOp → List Byte
  | [] => []
  | FsOp.write _ p :: ops => p ++ diskIn ops
  | _ :: ops => diskIn ops

/-- The number of bytes returned by the `Read` calls of a run that were issued while
the buffer had no disk segment. -/
def readBeforeSpill : List Step → Nat
  | [] => 0
  | s :: ss =>
    match s.call, s.pre.file with
    | Call.read _, none => s.n + readBeforeSpill ss
    | _, _ => readBeforeSpill ss

/-- The bytes written and not yet read: the head, followed by the bytes of the file
between the read offset and the write offset. -/
def pending (b : Buffer) : List Byte :=
  b.head ++
    match b.file with
    | none => []
    | some f => (f.data.drop b.freadOffset.toNat).take (b.fwriteOffset - b.freadOffset).toNat

/-- The buffer has no disk segment and its offsets are zero, as in `New`. -/
def MemoryOnly (b : Buffer) : Prop :=
  b.file = none ∧ b.freadOffset = 0 ∧ b.fwriteOffset = 0 ∧ b.fcurrentOffset = 0

/-- The state invariant of runs in which the storage layer does not fail: the head
holds at most `max` bytes; without a file the offsets are zero; with a file, the file
is as long as the write offset, the cached offset is the position of the file, and the
read offset lies between zero and the write offset. -/
def Coherent (b : Buffer) : Prop :=
  (b.head.length : Int) ≤ b.max ∧
    match b.file with
    | none => b.freadOffset = 0 ∧ b.fwriteOffset = 0 ∧ b.fcurrentOffset = 0
    | some f =>
      (f.data.length : Int) = b.fwriteOffset ∧ (f.pos : Int) = b.fcurrentOffset ∧
        0 ≤ b.freadOffset ∧ b.freadOffset ≤ b.fwriteOffset

/-- Every call of the sequence is a `Write` or a `Read`, and every file operation of
every call succeeds. -/
def AllSucceed (l : List (Call × Env)) : Prop :=
  ∀ ce ∈ l, ce.1.isTransfer = true ∧ ce.2.Succeeds

/-- The offsets are not negative, and they are zero while there is no file. This holds
in every state reachable from `New`, whatever the storage layer does. -/
def Tidy (b : Buffer) : Prop :=
  0 ≤ b.freadOffset ∧ 0 ≤ b.fwriteOffset ∧ 0 ≤ b.fcurrentOffset ∧
    (b.file = none → b.freadOffset = 0 ∧ b.fwriteOffset = 0 ∧ b.fcurrentOffset = 0)

/-- The calls `Write(p1), ..., Write(pk)`, each with its environment. -/
def writeCalls (ws : List (List Byte × Env)) : List (Call × Env) :=
  ws.map (fun w => (Call.write w.1, w.2))

/-- The calls `Read(d1), ..., Read(dk)`, each with its destination and environment. -/
def readCalls (ds : List (List Byte × Env)) : List (Call × Env) :=
  ds.map (fun d => (Call.read d.1, d.2))

/-- The concatenation `p1 ++ ... ++ pk` of the first components. -/
def allBytes : List (List Byte × Env) → List Byte
  | [] => []
  | w :: ws => w.1 ++ allBytes ws

/-! ## Further notions: restricted reachability, the overflow stream, the always-seeking buffer -/

/-- If the file write of the call fails, it fails without having stored a byte. -/
def Env.NoPartialWrite (env : Env) : Prop :=
  ∀ k e, env.writeFault = some (k, e) → k = 0

/-- The states reachable from `b0` by calls of `Write`, `Read` and `Close` that do not
panic and whose environments all satisfy `ok`. -/
inductive ReachableWhen (ok : Env → Prop) (b0 : Buffer) : Buffer → Prop where
  | init : ReachableWhen ok b0 b0
  | step (b : Buffer) (c : Call) (env : Env) (s : Step) :
      ReachableWhen ok b0 b → ok env → DiskBuffer.step b c env = some s →
      ReachableWhen ok b0 s.post

/-- The invariant behind the ordering of the offsets: without a file the offsets are zero;
with a file, the file is as long as the write offset, the read offset lies between zero
and the write offset, the position of the file is within the file, a cached offset equal
to the write offset is the position of the file, and a cached offset equal to the read
offset is not beyond the position of the file. -/
def Ordered (b : Buffer) : Prop :=
  match b.file with
  | none => b.freadOffset = 0 ∧ b.fwriteOffset = 0 ∧ b.fcurrentOffset = 0
  | some f =>
    (f.data.length : Int) = b.fwriteOffset ∧ 0 ≤ b.freadOffset ∧
      b.freadOffset ≤ b.fwriteOffset ∧ (f.pos : Int) ≤ b.fwriteOffset ∧
      (b.fcurrentOffset = b.fwriteOffset → (f.pos : Int) = b.fwriteOffset) ∧
      (b.fcurrentOffset = b.freadOffset → b.freadOffset ≤ f.pos)

/-- Every file operation of every call of the sequence succeeds; the calls may be
`Write`, `Read` or `Close`. -/
def AllEnvSucceed (l : List (Call × Env)) : Prop :=
  ∀ ce ∈ l, ce.2.Succeeds

/-- The bytes of the file of the buffer; empty when there is no file. -/
def fileData (b : Buffer) : List Byte :=
  match b.file with
  | none => []
  | some f => f.data

/-- The overflow stream after one more call, given the stream `acc` before it: a `Write`
to an existing file adds its whole slice; the `Write` that creates the file starts the
stream with the tail of its slice from the boundary `max - len head` on; a `Write` that
stays in memory and a `Read` add nothing; a `Close` that drops the file empties the
stream. -/
def spillNext (acc : List Byte) (s : Step) : List Byte :=
  match s.call with
  | Call.write p =>
    match s.pre.file with
    | some _ => acc ++ p
    | none =>
      match s.post.file with
      | some _ => p.drop (s.pre.max - s.pre.head.length).toNat
      | none => acc
  | Call.read _ => acc
  | Call.close =>
    match s.post.file with
    | some _ => acc
    | none => []

/-- The overflow stream of a run: the tail of the slice of the write that created the
current file, followed by every slice written afterwards, in order. -/
def spillStream (acc : List Byte) : List Step → List Byte
  | [] => acc
  | s :: ss => spillStream (spillNext acc s) ss

/-- The variant of `Read` that the cache is compared with: it is `Read` with the test
`fcurrentOffset != freadOffset` removed, so it seeks to the read offset before every
file read. -/
def Buffer.ReadSeeking (b : Buffer) (p : List Byte) (env : Env) : ReadResult :=
  if b.head.length > 0 then
    match bytesRead b.head p with
    | (n, err, p1, head1) =>
      let b1 := { b with head := head1 }
      if err = some GoError.EOF ∧ b.file ≠ none then ⟨n, some GoError.EOF, p1, b1, []⟩
      else ⟨n, err, p1, b1, []⟩
  else
    let afterSeek : Buffer × Option GoError × List FsOp :=
      match fileSeek b.file b.freadOffset env.seekErr with
      | (f1, r, e, ops) => ({ b with file := f1, fcurrentOffset := r }, e, ops)
    match afterSeek with
    | (b1, some e, ops1) => ⟨0, some e, p, b1, ops1⟩
    | (b1, none, ops1) =>
      match fileRead b1.file p env.readFault with
      | (f2, _, some e, p2, ops2) => ⟨0, some e, p2, { b1 with file := f2 }, ops1 ++ ops2⟩
      | (f2, n, none, p2, ops2) =>
        ⟨n, none, p2,
          { b1 with file := f2, freadOffset := b1.freadOffset + n,
                    fcurrentOffset := b1.freadOffset + n }, ops1 ++ ops2⟩

/-- The variant of `Write` that the cache is compared with: it is `Write` with the test
`fcurrentOffset != fwriteOffset` removed, so it seeks to the write offset before every
write to an existing file. -/
def Buffer.WriteSeeking (b : Buffer) (p : List Byte) (env : Env) : Option WriteResult :=
  if b.file ≠ none then
    let afterSeek : Buffer × Option GoError × List FsOp :=
      match fileSeek b.file b.fwriteOffset env.seekErr with
      | (f1, r, e, ops) => ({ b with file := f1, fcurrentOffset := r }, e, ops)
    match afterSeek with
    | (b1, some e, ops1) => some ⟨0, some e, b1, ops1⟩
    | (b1, none, ops1) =>
      match fileWrite b1.file p env.writeFault with
      | (f2, _, some e, ops2) => some ⟨0, some e, { b1 with file := f2 }, ops1 ++ ops2⟩
      | (f2, n, none, ops2) =>
        some ⟨n, none,
          { b1 with file := f2, fwriteOffset := b1.fwriteOffset + n,
                    fcurrentOffset := b1.fwriteOffset + n }, ops1 ++ ops2⟩
  else b.Write p env

/-- One call of the always-seeking buffer. -/
def stepSeeking (b : Buffer) (c : Call) (env : Env) : Option Step :=
  match c with
  | Call.write p =>
    match b.WriteSeeking p env with
    | none => none
    | some r => some ⟨c, b, r.buf, r.n, r.err, [], r.ops⟩
  | Call.read p =>
    match b.ReadSeeking p env with
    | r => some ⟨c, b, r.buf, r.n, r.err, r.p.take r.n, r.ops⟩
  | Call.close =>
    match b.Close env with
    | r => some ⟨c, b, r.buf, 0, r.err, [], r.ops⟩

/-- A sequence of calls of the always-seeking buffer. -/
def execSeeking (b : Buffer) : List (Call × Env) → Option (List Step × Buffer)
  | [] => some ([], b)
  | (c, env) :: rest =>
    match stepSeeking b c env with
    | none => none
    | some s =>
      match execSeeking s.post rest with
      | none => none
      | some (ss, b1) => some (s :: ss, b1)

/-- What a caller and the file system see of a call, apart from the list of system
calls: the call, the buffer before it, the count, the error, the bytes received and the
buffer after it (which holds the bytes and the position of the file). -/
def Step.outcome (s : Step) : Call × Buffer × Nat × Option GoError × List Byte × Buffer :=
  (s.call, s.pre, s.n, s.err, s.out, s.post)

/-- The file read of the call behaves as `(*os.File).Read` does: when it reports an
error (end of file included) it has transferred no byte. -/
def Env.ReadsLikeOSFile (env : Env) : Prop :=
  ∀ k e, env.readFault = some (k, e) → k = 0

/-! ## Lemmas on the file model and on single calls -/

theorem writeAt_end (data p : List Byte) : writeAt data data.length p = data ++ p := by
  simp [writeAt]

/-- Writing at the start of an empty file gives the written bytes. -/
theorem writeAt_nil (p : List Byte) : writeAt [] 0 p = p := by
  simp [writeAt]

/-- After a write at `pos`, the file holds the written bytes from `pos` on. -/
theorem writeAt_window (data p : List Byte) (pos : Nat) :
    ((writeAt data pos p).drop pos).take p.length = p := by
  have hlen : (data.take pos ++ List.replicate (pos - data.length) (0 : Byte)).length = pos := by
    simp; omega
  unfold writeAt
  rw [List.append_assoc, List.append_assoc, ← List.append_assoc (List.take pos data)]
  rw [List.drop_left' hlen]
  simp

/-- A `Write` on a buffer with a file, when neither the seek nor the write fails and
the cached offset is the position of the file. -/
theorem Write_spilled_ok (b : Buffer) (f : OSFile) (p : List Byte) (env : Env)
    (hf : b.file = some f) (hpos : (f.pos : Int) = b.fcurrentOffset)
    (hw0 : 0 ≤ b.fwriteOffset)
    (hs : env.seekErr = none) (hw : env.writeFault = none) :
    ∃ ops, b.Write p env = some ⟨p.length, none,
      { b with file := some ⟨f.name, writeAt f.data b.fwriteOffset.toNat p,
                              b.fwriteOffset.toNat + p.length⟩,
               fwriteOffset := b.fwriteOffset + p.length,
               fcurrentOffset := b.fwriteOffset + p.length }, ops⟩ ∧
      diskIn ops = p := by
  by_cases hc : b.fcurrentOffset = b.fwriteOffset
  · have hp : f.pos = b.fwriteOffset.toNat := by omega
    refine ⟨[FsOp.write f.name p], ?_, by simp [diskIn]⟩
    simp [Buffer.Write, hf, hc, fileWrite, hw, hp]
  · have hn : ¬ b.fwriteOffset < 0 := by omega
    refine ⟨[FsOp.seek f.name b.fwriteOffset, FsOp.write f.name p], ?_, by simp [diskIn]⟩
    simp [Buffer.Write, hf, hc, fileSeek, hs, hn, fileWrite, hw]

/-- The branch `head.Len()+len(p) <= max` of `Write`: everything goes to the head. -/
theorem Write_fits (b : Buffer) (p : List Byte) (env : Env)
    (hf : b.file = none) (hfit : (b.head.length : Int) + p.length ≤ b.max) :
    b.Write p env = some ⟨p.length, none, { b with head := b.head ++ p }, []⟩ := by
  simp [Buffer.Write, hf, hfit, bytesWrite]

/-- The overflow branch of `Write` when the file is created and written without a fault;
`k` is the boundary. -/
theorem Write_overflow_ok (b : Buffer) (p : List Byte) (env : Env) (name k : Nat)
    (hf : b.file = none) (hk : (k : Int) = b.max - b.head.length) (hover : k < p.length)
    (htmp : env.tempFile = Except.ok name) (hw : env.writeFault = none) :
    b.Write p env = some ⟨p.length, none,
      { b with head := b.head ++ p.take k, file := some ⟨name, p.drop k, p.length - k⟩,
               fwriteOffset := ((p.length - k : Nat) : Int),
               fcurrentOffset := ((p.length - k : Nat) : Int) },
      [FsOp.tempFile, FsOp.write name (p.drop k)]⟩ := by
  have h1 : ¬ ((b.head.length : Int) + p.length ≤ b.max) := by omega
  have h2 : ¬ (b.max - (b.head.length : Int) < 0 ∨ (p.length : Int) < b.max - b.head.length) := by
    omega
  have h3 : (b.max - (b.head.length : Int)).toNat = k := by omega
  simp only [Buffer.Write, hf, h1, h2, h3, bytesWrite, tempFile, htmp, fileWrite, hw, writeAt_nil]
  simp
  omega

/-- The branch `head.Len() > 0` of `Read`: bytes come from the head only. -/
theorem Read_head (b : Buffer) (d : List Byte) (env : Env) (hh : 0 < b.head.length) :
    b.Read d env = ⟨min d.length b.head.length, none,
      b.head.take (min d.length b.head.length) ++ d.drop (min d.length b.head.length),
      { b with head := b.head.drop (min d.length b.head.length) }, []⟩ := by
  have h0 : b.head.length ≠ 0 := by omega
  have h1 : ¬ b.head = [] := fun h => by simp [h] at h0
  simp [Buffer.Read, hh, bytesRead, h0, h1]

/-- `Read` with an empty head and a nil file: the nil handle rejects the seek or the read
with `os.ErrInvalid`; a rejected seek also zeroes the cached offset. -/
theorem Read_drained (b : Buffer) (d : List Byte) (env : Env)
    (hh : b.head = []) (hf : b.file = none) :
    (b.Read d env).n = 0 ∧ (b.Read d env).err = some GoError.ErrInvalid ∧
    (b.Read d env).p = d ∧ (b.Read d env).ops = [] ∧
    (b.Read d env).buf = { b with fcurrentOffset :=
      if b.fcurrentOffset = b.freadOffset then b.fcurrentOffset else 0 } := by
  by_cases hc : b.fcurrentOffset = b.freadOffset
  · simp [Buffer.Read, hh, hf, hc, fileRead]
  · simp [Buffer.Read, hh, hf, hc, fileSeek]

/-- `Read` with an empty head from a file whose position is the cached offset, when
neither the seek nor the read fails. -/
theorem Read_spilled_ok (b : Buffer) (f : OSFile) (d : List Byte) (env : Env)
    (hh : b.head = []) (hf : b.file = some f) (hpos : (f.pos : Int) = b.fcurrentOffset)
    (hr0 : 0 ≤ b.freadOffset) (hs : env.seekErr = none) (hrd : env.readFault = none) :
    ∃ n, (b.Read d env).n = n ∧
      n = (if d.length = 0 then 0 else min d.length (f.data.length - b.freadOffset.toNat)) ∧
      (b.Read d env).p = (f.data.drop b.freadOffset.toNat).take n ++ d.drop n ∧
      (b.Read d env).buf = { b with
        file := some ⟨f.name, f.data, b.freadOffset.toNat + n⟩,
        freadOffset := b.freadOffset + n,
        fcurrentOffset := b.freadOffset + n } ∧
      ((b.Read d env).err = none ∨ (b.Read d env).err = some GoError.EOF) ∧
      diskIn (b.Read d env).ops = [] := by
  have hn : ¬ b.freadOffset < 0 := by omega
  have hh0 : ¬ (0 < b.head.length) := by simp [hh]
  by_cases hd : d.length = 0
  · have hd2 : d = [] := List.length_eq_zero.mp hd
    by_cases hc : b.fcurrentOffset = b.freadOffset
    · have hp : f.pos = b.freadOffset.toNat := by omega
      simp [Buffer.Read, hh, hf, hc, diskIn, fileRead, hd2, hp]
      rw [← hp]
    · simp [Buffer.Read, hh, hf, hc, diskIn, fileSeek, hs, hn, fileRead, hd2]
  · by_cases ha : f.data.length - b.freadOffset.toNat = 0
    · by_cases hc : b.fcurrentOffset = b.freadOffset
      · have hp : f.pos = b.freadOffset.toNat := by omega
        simp [Buffer.Read, hh, hf, hc, diskIn, fileRead, hd, hp, hrd, ha]
        rw [← hp]
      · simp [Buffer.Read, hh, hf, hc, diskIn, fileSeek, hs, hn, fileRead, hd, hrd, ha]
    · by_cases hc : b.fcurrentOffset = b.freadOffset
      · have hp : f.pos = b.freadOffset.toNat := by omega
        simp [Buffer.Read, hh, hf, hc, diskIn, fileRead, hd, hp, hrd, ha]
      · simp [Buffer.Read, hh, hf, hc, diskIn, fileSeek, hs, hn, fileRead, hd, hrd, ha]

/-- The pending bytes when the file is as long as the write offset. -/
theorem pending_of_file (b : Buffer) (f : OSFile) (r : Nat) (hf : b.file = some f)
    (hr : b.freadOffset = r) (hw : b.fwriteOffset = f.data.length) :
    pending b = b.head ++ f.data.drop r := by
  simp only [pending, hf, hr, hw, Int.toNat_ofNat]
  congr 1
  apply List.take_of_length_le
  simp

/-- The same as `pending_of_file`, on an explicit record. -/
theorem pending_mk (mx : Int) (head : List Byte) (f : OSFile) (fr fw fc : Int) (r : Nat)
    (hr : fr = r) (hw : fw = f.data.length) :
    pending ⟨mx, head, some f, fr, fw, fc⟩ = head ++ f.data.drop r :=
  pending_of_file _ f r rfl hr hw

/-- Without a file the pending bytes are the head. -/
theorem pending_of_nofile (b : Buffer) (hf : b.file = none) : pending b = b.head := by
  simp [pending, hf]

/-- A `Write` without storage faults on a coherent buffer: it returns `(len p, nil)`,
keeps the buffer coherent, appends `p` to the pending bytes, and splits `p` between the
head and the file. -/
theorem Write_coherent (b : Buffer) (p : List Byte) (env : Env) (name : Nat)
    (hc : Coherent b) (hs : env.seekErr = none) (hw : env.writeFault = none)
    (htmp : env.tempFile = Except.ok name) :
    ∃ r, b.Write p env = some r ∧ r.n = p.length ∧ r.err = none ∧ Coherent r.buf ∧
      r.buf.max = b.max ∧ pending r.buf = pending b ++ p ∧
      r.buf.head.drop b.head.length ++ diskIn r.ops = p ∧
      (b.file ≠ none → r.buf.head = b.head ∧ r.buf.file ≠ none) ∧
      (b.file = none → r.buf.file = none → diskIn r.ops = [] ∧ r.buf.head = b.head ++ p) ∧
      (b.file = none → r.buf.file ≠ none → (r.buf.head.length : Int) = b.max) := by
  obtain ⟨hcap, hrest⟩ := hc
  cases hf : b.file with
  | some f =>
    rw [hf] at hrest
    obtain ⟨hlen, hpos, hr0, hrw⟩ := hrest
    obtain ⟨ops, hW, hops⟩ := Write_spilled_ok b f p env hf hpos (by omega) hs hw
    have hwn : b.fwriteOffset.toNat = f.data.length := by omega
    obtain ⟨rn, hrn⟩ := Int.eq_ofNat_of_zero_le hr0
    rw [hwn, writeAt_end] at hW
    refine ⟨_, hW, rfl, rfl, ?_, rfl, ?_, ?_, ?_, ?_, ?_⟩
    · refine ⟨hcap, ?_⟩
      simp
      omega
    · refine (pending_mk _ _ _ _ _ _ rn hrn ?_).trans ?_
      · simp; omega
      · rw [pending_of_file b f rn hf hrn hlen.symm]
        have : rn ≤ f.data.length := by omega
        simp [List.drop_append_of_le_length this]
    · simp [hops]
    · intro _; simp
    · intro h; simp at h
    · intro h; simp at h
  | none =>
    rw [hf] at hrest
    obtain ⟨h1, h2, h3⟩ := hrest
    by_cases hfit : (b.head.length : Int) + p.length ≤ b.max
    · refine ⟨_, Write_fits b p env hf hfit, rfl, rfl, ?_, rfl, ?_, ?_, ?_, ?_, ?_⟩
      · refine ⟨?_, ?_⟩
        · simp; omega
        · simp [hf, h1, h2, h3]
      · simp [pending, hf]
      · simp [diskIn]
      · intro h; exact absurd rfl h
      · intro _ _; simp [diskIn]
      · intro _ h; simp [hf] at h
    · obtain ⟨k, hk⟩ := Int.eq_ofNat_of_zero_le (show 0 ≤ b.max - b.head.length by omega)
      have hklt : k < p.length := by omega
      refine ⟨_, Write_overflow_ok b p env name k hf hk.symm hklt htmp hw,
        rfl, rfl, ?_, rfl, ?_, ?_, ?_, ?_, ?_⟩
      · refine ⟨?_, ?_⟩
        · simp; omega
        · simp [h1]
      · refine (pending_mk _ _ _ _ _ _ 0 (by simp [h1]) ?_).trans ?_
        · simp
        · simp [pending_of_nofile b hf]
      · simp [diskIn]
      · intro h; exact absurd rfl h
      · intro _ h; simp at h
      · intro _ _; simp; omega

/-- The bytes passed to file writes, over a concatenation of operation lists. -/
theorem diskIn_append (xs ys : List FsOp) : diskIn (xs ++ ys) = diskIn xs ++ diskIn ys := by
  induction xs with
  | nil => simp [diskIn]
  | cons x xs ih => cases x <;> simp [diskIn, ih]

/-- A `Read` without storage faults on a coherent buffer: it keeps the buffer coherent
and returns a front part of the pending bytes. -/
theorem Read_coherent (b : Buffer) (d : List Byte) (env : Env)
    (hc : Coherent b) (hs : env.seekErr = none) (hrd : env.readFault = none) :
    Coherent (b.Read d env).buf ∧ (b.Read d env).buf.max = b.max ∧
      (b.Read d env).p.take (b.Read d env).n ++ pending (b.Read d env).buf = pending b ∧
      ((b.Read d env).buf.file = none ↔ b.file = none) ∧
      (b.file = none → (b.Read d env).buf.head.length + (b.Read d env).n = b.head.length) ∧
      diskIn (b.Read d env).ops = [] := by
  obtain ⟨hcap, hrest⟩ := hc
  by_cases hh : 0 < b.head.length
  · rw [Read_head b d env hh]
    have hmin : min d.length b.head.length ≤ b.head.length := Nat.min_le_right _ _
    refine ⟨⟨?_, hrest⟩, rfl, ?_, Iff.rfl, ?_, rfl⟩
    · simp only [List.length_drop]; omega
    · have h1 : (b.head.take (min d.length b.head.length) ++
          d.drop (min d.length b.head.length)).take (min d.length b.head.length) =
          b.head.take (min d.length b.head.length) := by
        rw [List.take_append_of_le_length (by simp)]
        exact List.take_of_length_le (by simp)
      simp only [h1, pending]
      rw [← List.append_assoc, List.take_append_drop]
    · intro _; simp only [List.length_drop]; omega
  · have hh2 : b.head = [] := List.length_eq_zero.mp (by omega)
    cases hf : b.file with
    | none =>
      rw [hf] at hrest
      obtain ⟨h1, h2, h3⟩ := hrest
      obtain ⟨e1, e2, e3, e4, e5⟩ := Read_drained b d env hh2 hf
      have e6 : (b.Read d env).buf = b := by
        rw [e5]; cases b; simp_all
      rw [e6, e1, e4]
      refine ⟨⟨hcap, ?_⟩, rfl, by simp, by simp [hf], fun _ => rfl, rfl⟩
      simp [hf, h1, h2, h3]
    | some f =>
      rw [hf] at hrest
      obtain ⟨hlen, hpos, hr0, hrw⟩ := hrest
      obtain ⟨n, e1, e2, e3, e4, e5, e6⟩ := Read_spilled_ok b f d env hh2 hf hpos hr0 hs hrd
      obtain ⟨rn, hrn⟩ := Int.eq_ofNat_of_zero_le hr0
      have hrl : rn ≤ f.data.length := by omega
      have hrt : b.freadOffset.toNat = rn := by omega
      rw [hrt] at e2 e3 e4
      have hn : n ≤ f.data.length - rn := by
        rw [e2]; split
        · omega
        · exact Nat.min_le_right _ _
      rw [e4, e1, e3, e6]
      refine ⟨⟨by simpa using hcap, ?_⟩, rfl, ?_, by simp, fun h => by simp at h, rfl⟩
      · simp only []
        refine ⟨hlen, ?_, ?_, ?_⟩
        · rw [hrn]; push_cast; ring
        · omega
        · omega
      · rw [pending_of_file b f rn hf hrn hlen.symm]
        have hp2 := pending_mk b.max b.head ⟨f.name, f.data, rn + n⟩ (b.freadOffset + n)
          b.fwriteOffset (b.freadOffset + n) (rn + n) (by rw [hrn]; push_cast; ring) hlen.symm
        rw [hp2]
        simp only [hh2, List.nil_append]
        have h1 : ((f.data.drop rn).take n ++ d.drop n).take n = (f.data.drop rn).take n := by
          rw [List.take_append_of_le_length (by simp; omega)]
          exact List.take_of_length_le (by simp)
        rw [h1, ← List.drop_drop, List.take_append_drop]

/-- A run of `Write` and `Read` calls without storage faults from a coherent buffer: it
does not panic, ends in a coherent buffer, is first-in first-out, and accounts for
every written byte either in the head or in the file. -/
theorem exec_coherent (l : List (Call × Env)) :
    ∀ b : Buffer, Coherent b → AllSucceed l →
    ∃ steps b1, exec b l = some (steps, b1) ∧ Coherent b1 ∧ b1.max = b.max ∧
      readOut steps ++ pending b1 = pending b ++ written steps ∧
      headIn steps ++ diskIn (opsOf steps) = written steps ∧
      (b.file ≠ none → headIn steps = [] ∧ readBeforeSpill steps = 0 ∧ b1.file ≠ none) ∧
      (b.file = none → b1.file = none → diskIn (opsOf steps) = [] ∧
        b1.head.length + readBeforeSpill steps = b.head.length + (headIn steps).length) ∧
      (b.file = none → b1.file ≠ none →
        ((b.head.length + (headIn steps).length : Nat) : Int)
          = b.max + readBeforeSpill steps) := by
  induction l with
  | nil =>
    intro b hc _
    refine ⟨[], b, rfl, hc, rfl, by simp [readOut, written], by simp [headIn, opsOf, diskIn, written],
      fun h => ⟨rfl, rfl, h⟩, fun _ _ => ⟨rfl, rfl⟩, fun h1 h2 => absurd h1 h2⟩
  | cons ce rest ih =>
    intro b hc hall
    obtain ⟨c, env⟩ := ce
    have hce := hall (c, env) (List.mem_cons_self _ _)
    have hrest : AllSucceed rest := fun x hx => hall x (List.mem_cons_of_mem _ hx)
    obtain ⟨hio, name, henv⟩ := hce
    subst henv
    cases c with
    | close => simp [Call.isTransfer] at hio
    | write p =>
      obtain ⟨r, hW, hn, herr, hc1, hmax, hpend, hsplit, hsp, hnn, hns⟩ :=
        Write_coherent b p (Env.ok name) name hc rfl rfl rfl
      obtain ⟨steps, b1, hex, hcb, hmx, hfifo, hio2, hA, hB, hC⟩ := ih r.buf hc1 hrest
      refine ⟨⟨Call.write p, b, r.buf, r.n, r.err, [], r.ops⟩ :: steps, b1, ?_, hcb,
        by rw [hmx, hmax], ?_, ?_, ?_, ?_, ?_⟩
      · simp [exec, step, hW, hex]
      · simp only [readOut, written, List.nil_append]
        rw [hfifo, hpend, List.append_assoc]
      · have hor : diskIn r.ops = [] ∨ headIn steps = [] := by
          cases hrf : r.buf.file with
          | none =>
            cases hbf : b.file with
            | none => exact Or.inl (hnn hbf hrf).1
            | some f => exact absurd hrf (hsp (by simp [hbf])).2
          | some f => exact Or.inr (hA (by simp [hrf])).1
        simp only [headIn, opsOf, written, diskIn_append]
        rcases hor with h | h
        · rw [h] at hsplit ⊢
          rw [List.append_nil] at hsplit
          rw [hsplit, List.nil_append, List.append_assoc, hio2]
        · rw [h] at hio2 ⊢
          rw [List.nil_append] at hio2
          rw [List.append_nil, hio2, ← List.append_assoc, hsplit]
      · intro hbf
        obtain ⟨h1, h2⟩ := hsp hbf
        obtain ⟨h3, h4, h5⟩ := hA h2
        refine ⟨?_, ?_, h5⟩
        · simp [headIn, h1, h3]
        · simp [readBeforeSpill, h4]
      · intro hbf hb1
        have hrf : r.buf.file = none := by
          by_contra hne
          exact (hA hne).2.2 hb1
        obtain ⟨h1, h2⟩ := hnn hbf hrf
        obtain ⟨h3, h4⟩ := hB hrf hb1
        refine ⟨?_, ?_⟩
        · simp [opsOf, diskIn_append, h1, h3]
        · simp only [readBeforeSpill, headIn, h2, List.length_append, List.drop_left,
            List.length_append] at h4 ⊢
          omega
      · intro hbf hb1
        by_cases hrf : r.buf.file = none
        · obtain ⟨h1, h2⟩ := hnn hbf hrf
          have h3 := hC hrf hb1
          simp only [readBeforeSpill, headIn, h2, List.length_append, List.drop_left] at h3 ⊢
          rw [hmax] at h3
          push_cast at h3 ⊢
          omega
        · have h1 := hns hbf hrf
          obtain ⟨h3, h4, _⟩ := hA hrf
          have hcap := hc.1
          simp only [readBeforeSpill, headIn, h3, h4, List.length_append, List.length_drop,
            List.length_nil]
          push_cast
          omega
    | read d =>
      obtain ⟨hc1, hmax, hpend, hfile, hhead, hops⟩ := Read_coherent b d (Env.ok name) hc rfl rfl
      obtain ⟨steps, b1, hex, hcb, hmx, hfifo, hio2, hA, hB, hC⟩ :=
        ih (b.Read d (Env.ok name)).buf hc1 hrest
      refine ⟨⟨Call.read d, b, (b.Read d (Env.ok name)).buf, (b.Read d (Env.ok name)).n,
        (b.Read d (Env.ok name)).err,
        (b.Read d (Env.ok name)).p.take (b.Read d (Env.ok name)).n,
        (b.Read d (Env.ok name)).ops⟩ :: steps, b1, ?_, hcb, by rw [hmx, hmax], ?_, ?_, ?_, ?_, ?_⟩
      · simp [exec, step, hex]
      · simp only [readOut, written]
        rw [List.append_assoc, hfifo, ← List.append_assoc, hpend]
      · simp only [headIn, opsOf, written, diskIn_append, hops, List.nil_append]
        exact hio2
      · intro hbf
        have hrf : (b.Read d (Env.ok name)).buf.file ≠ none := fun h => hbf (hfile.mp h)
        obtain ⟨h3, h4, h5⟩ := hA hrf
        refine ⟨by simpa [headIn] using h3, ?_, h5⟩
        cases hbf2 : b.file with
        | none => exact absurd hbf2 hbf
        | some f => simp [readBeforeSpill, hbf2, h4]
      · intro hbf hb1
        have hrf := hfile.mpr hbf
        obtain ⟨h3, h4⟩ := hB hrf hb1
        have h5 := hhead hbf
        refine ⟨by simp [opsOf, diskIn_append, hops, h3], ?_⟩
        simp only [readBeforeSpill, headIn, hbf]
        omega
      · intro hbf hb1
        have hrf := hfile.mpr hbf
        have h3 := hC hrf hb1
        have h5 := hhead hbf
        rw [hmax] at h3
        simp only [readBeforeSpill, headIn, hbf]
        push_cast at h3 ⊢
        omega

/-! ## What every call preserves, whatever the storage layer does -/

theorem Write_tidy (b : Buffer) (p : List Byte) (env : Env) (r : WriteResult)
    (ht : Tidy b) (hW : b.Write p env = some r) :
    Tidy r.buf ∧ r.buf.max = b.max ∧
      ((b.head.length : Int) ≤ b.max → (r.buf.head.length : Int) ≤ b.max) ∧
      (b.file ≠ none → r.buf.head = b.head ∧ r.buf.file ≠ none) := by
  rcases env with ⟨se, rf, wf, tf, re⟩
  rcases b with ⟨mx, head, file, fr, fw, fc⟩
  obtain ⟨t1, t2, t3, t4⟩ := ht
  simp only at t1 t2 t3 t4
  cases file with
  | some f =>
    have hn : ¬ fw < 0 := by omega
    by_cases hc : fc = fw <;> rcases se with _ | e <;> rcases wf with _ | ⟨k, e2⟩ <;>
      simp [Buffer.Write, fileSeek, fileWrite, hc, hn] at hW <;>
      subst hW <;> simp [Tidy] <;> omega
  | none =>
    obtain ⟨rfl, rfl, rfl⟩ := t4 rfl
    by_cases hfit : (head.length : Int) + p.length ≤ mx
    · simp [Buffer.Write, hfit, bytesWrite] at hW
      subst hW
      simp [Tidy]
      intro _; omega
    · rcases tf with e | name <;> rcases wf with _ | ⟨k, e2⟩ <;>
        simp [Buffer.Write, hfit, bytesWrite, tempFile, fileWrite] at hW <;>
        obtain ⟨hbd, hW⟩ := hW <;>
        subst hW <;> simp [Tidy] <;> omega

/-- What `Read` preserves under every behaviour of the storage layer. -/
theorem Read_tidy (b : Buffer) (d : List Byte) (env : Env) (ht : Tidy b) :
    Tidy (b.Read d env).buf ∧ (b.Read d env).buf.max = b.max ∧
      (b.Read d env).buf.head.length ≤ b.head.length ∧
      ((b.Read d env).buf.file = none ↔ b.file = none) := by
  by_cases hh : 0 < b.head.length
  · rw [Read_head b d env hh]
    exact ⟨ht, rfl, by simp, Iff.rfl⟩
  · have hh2 : b.head = [] := List.length_eq_zero.mp (by omega)
    rcases env with ⟨se, rf, wf, tf, re⟩
    rcases b with ⟨mx, head, file, fr, fw, fc⟩
    obtain ⟨t1, t2, t3, t4⟩ := ht
    simp only at t1 t2 t3 t4 hh2
    subst hh2
    cases file with
    | none =>
      obtain ⟨rfl, rfl, rfl⟩ := t4 rfl
      simp [Buffer.Read, fileRead, Tidy]
    | some f =>
      have hn : ¬ fr < 0 := by omega
      by_cases hc : fc = fr <;> rcases se with _ | e <;> rcases rf with _ | ⟨k, e2⟩ <;>
        by_cases hd : d = [] <;>
        by_cases ha1 : f.data.length - f.pos = 0 <;>
        by_cases ha2 : f.data.length - fr.toNat = 0 <;>
        simp [Buffer.Read, fileSeek, fileRead, hc, hn, hd, ha1, ha2, Tidy] <;> omega

end DiskBuffer
namespace DiskBuffer

/-- What `Close` preserves under every behaviour of the storage layer. -/
theorem Close_tidy (b : Buffer) (env : Env) (ht : Tidy b) :
    Tidy (b.Close env).buf ∧ (b.Close env).buf.max = b.max ∧ (b.Close env).buf.head = [] := by
  rcases env with ⟨se, rf, wf, tf, re⟩
  rcases b with ⟨mx, head, file, fr, fw, fc⟩
  obtain ⟨t1, t2, t3, t4⟩ := ht
  simp only at t1 t2 t3 t4
  cases file with
  | none =>
    obtain ⟨rfl, rfl, rfl⟩ := t4 rfl
    simp [Buffer.Close, Tidy]
  | some f =>
    rcases re with _ | e
    · simp [Buffer.Close, osRemove, Tidy]
    · simp [Buffer.Close, osRemove, Tidy]; omega

/-- What every call preserves. -/
theorem step_tidy (b : Buffer) (c : Call) (env : Env) (s : Step)
    (ht : Tidy b) (hs : step b c env = some s) :
    Tidy s.post ∧ s.post.max = b.max ∧
      ((b.head.length : Int) ≤ b.max → (s.post.head.length : Int) ≤ s.post.max) := by
  cases c with
  | write p =>
    cases hW : b.Write p env with
    | none => simp [step, hW] at hs
    | some r =>
      simp only [step, hW, Option.some.injEq] at hs
      subst hs
      obtain ⟨h1, h2, h3, _⟩ := Write_tidy b p env r ht hW
      exact ⟨h1, h2, fun h => by rw [h2]; exact h3 h⟩
  | read d =>
    simp only [step, Option.some.injEq] at hs
    subst hs
    obtain ⟨h1, h2, h3, _⟩ := Read_tidy b d env ht
    exact ⟨h1, h2, fun h => by rw [h2]; simp only []; omega⟩
  | close =>
    simp only [step, Option.some.injEq] at hs
    subst hs
    obtain ⟨h1, h2, h3⟩ := Close_tidy b env ht
    refine ⟨h1, h2, fun h => ?_⟩
    rw [h2]; simp only [h3, List.length_nil]; simp at h ⊢; omega

/-- What holds in every reachable state. -/
theorem reachable_tidy (b0 b : Buffer) (hr : Reachable b0 b) (ht : Tidy b0) :
    Tidy b ∧ b.max = b0.max ∧
      ((b0.head.length : Int) ≤ b0.max → (b.head.length : Int) ≤ b.max) := by
  induction hr with
  | init => exact ⟨ht, rfl, id⟩
  | step b c env s _ hs ih =>
    obtain ⟨h1, h2, h3⟩ := ih
    obtain ⟨g1, g2, g3⟩ := step_tidy b c env s h1 hs
    exact ⟨g1, by rw [g2, h2], fun h => g3 (h3 h)⟩

/-- The buffer made by `New` is tidy. -/
theorem New_tidy (c : Int) : Tidy (New c) := by
  simp [Tidy, New]

/-- The buffer made by `New` with a capacity that is not negative is coherent. -/
theorem New_coherent (c : Int) (hc : 0 ≤ c) : Coherent (New c) := by
  simp [Coherent, New, hc]

/-! ## Runs that stay in memory, and writes to an existing file -/

/-- With a disk segment, `Write` never panics. -/
theorem Write_spilled_total (b : Buffer) (f : OSFile) (p : List Byte) (env : Env)
    (hf : b.file = some f) : ∃ r, b.Write p env = some r := by
  rcases env with ⟨se, rf, wf, tf, re⟩
  by_cases hc : b.fcurrentOffset = b.fwriteOffset <;> rcases se with _ | e <;>
    rcases wf with _ | ⟨k, e2⟩ <;> by_cases hn : b.fwriteOffset < 0 <;>
    simp [Buffer.Write, fileSeek, fileWrite, hf, hc, hn]

/-- A `Write` on a buffer with a file when neither the seek nor the write fails: the
bytes land at the position of the file, which is the write offset if a seek was needed
and the position the file already had otherwise. -/
theorem Write_spilled_any (b : Buffer) (f : OSFile) (p : List Byte) (env : Env)
    (hf : b.file = some f) (hw0 : 0 ≤ b.fwriteOffset)
    (hs : env.seekErr = none) (hw : env.writeFault = none) :
    ∃ pos ops, b.Write p env = some ⟨p.length, none,
      { b with file := some ⟨f.name, writeAt f.data pos p, pos + p.length⟩,
               fwriteOffset := b.fwriteOffset + p.length,
               fcurrentOffset := b.fwriteOffset + p.length }, ops⟩ ∧
      diskIn ops = p ∧
      pos = (if b.fcurrentOffset = b.fwriteOffset then f.pos else b.fwriteOffset.toNat) := by
  by_cases hc : b.fcurrentOffset = b.fwriteOffset
  · refine ⟨f.pos, [FsOp.write f.name p], ?_, by simp [diskIn], by simp [hc]⟩
    simp [Buffer.Write, hf, hc, fileWrite, hw]
  · have hn : ¬ b.fwriteOffset < 0 := by omega
    refine ⟨b.fwriteOffset.toNat, [FsOp.seek f.name b.fwriteOffset, FsOp.write f.name p], ?_,
      by simp [diskIn], by simp [hc]⟩
    simp [Buffer.Write, hf, hc, fileSeek, hs, hn, fileWrite, hw]

/-- Writes that fit in the head of a buffer without a file: each appends its bytes to
the head, returns `(len p, nil)` and performs no file operation. -/
theorem exec_writes_fit (ws : List (List Byte × Env)) :
    ∀ b : Buffer, b.file = none → (b.head.length : Int) + (allBytes ws).length ≤ b.max →
    ∃ steps, exec b (writeCalls ws) = some (steps, { b with head := b.head ++ allBytes ws }) ∧
      steps.map Step.call = ws.map (fun w => Call.write w.1) ∧
      ∀ s ∈ steps, ∃ p, s.call = Call.write p ∧ s.n = p.length ∧ s.err = none ∧
        s.ops = [] ∧ s.post.file = none := by
  induction ws with
  | nil => intro b _ _; exact ⟨[], by simp [exec, writeCalls, allBytes], rfl, by simp⟩
  | cons w ws ih =>
    intro b hf hfit
    obtain ⟨p, env⟩ := w
    simp only [allBytes, List.length_append] at hfit
    push_cast at hfit
    have hW := Write_fits b p env hf (by omega)
    obtain ⟨steps, hex, hcalls, hall⟩ := ih { b with head := b.head ++ p } hf
      (by simp only [List.length_append]; push_cast; omega)
    refine ⟨⟨Call.write p, b, { b with head := b.head ++ p }, p.length, none, [], []⟩ :: steps,
      ?_, ?_, ?_⟩
    · simp [exec, writeCalls, step, hW]
      simp [writeCalls] at hex
      simp [hex, allBytes]
    · simp [hcalls]
    · intro s hs
      rcases List.mem_cons.mp hs with rfl | hs
      · exact ⟨p, rfl, rfl, rfl, rfl, hf⟩
      · exact hall s hs

/-- Reads on a buffer without a file return a front part of the head and perform no
file operation. -/
theorem exec_reads_memory (ds : List (List Byte × Env)) :
    ∀ b : Buffer, b.file = none →
    ∃ steps b1, exec b (readCalls ds) = some (steps, b1) ∧ b1.file = none ∧
      opsOf steps = [] ∧ readOut steps ++ b1.head = b.head := by
  induction ds with
  | nil => intro b hf; exact ⟨[], b, by simp [exec, readCalls], hf, rfl, by simp [readOut]⟩
  | cons d ds ih =>
    intro b hf
    obtain ⟨d, env⟩ := d
    have key : ((b.Read d env).buf.file = none ∧ (b.Read d env).ops = []) ∧
        (b.Read d env).p.take (b.Read d env).n ++ (b.Read d env).buf.head = b.head := by
      by_cases hh : 0 < b.head.length
      · rw [Read_head b d env hh]
        refine ⟨⟨hf, rfl⟩, ?_⟩
        simp only []
        rw [List.take_append_of_le_length (by simp), List.take_of_length_le (by simp)]
        exact List.take_append_drop _ _
      · have hh2 : b.head = [] := List.length_eq_zero.mp (by omega)
        obtain ⟨e1, _, _, e4, e5⟩ := Read_drained b d env hh2 hf
        rw [e5, e1, e4]
        simp [hf, hh2]
    obtain ⟨⟨k1, k2⟩, k3⟩ := key
    obtain ⟨steps, b1, hex, hb1, hops, hout⟩ := ih (b.Read d env).buf k1
    refine ⟨⟨Call.read d, b, (b.Read d env).buf, (b.Read d env).n, (b.Read d env).err,
      (b.Read d env).p.take (b.Read d env).n, (b.Read d env).ops⟩ :: steps, b1, ?_, hb1, ?_, ?_⟩
    · simp only [readCalls, List.map_cons, exec, step]
      simp only [readCalls] at hex
      rw [hex]
    · simp [opsOf, k2, hops]
    · simp only [readOut]
      rw [List.append_assoc, hout, k3]

/-! ## Lemmas on the file reference, the ordering of the offsets, the overflow stream and the cache -/

/-- What `Read` does to the file reference, whatever the storage layer does: a file
stays the same file, and no file is created. -/
theorem Read_file_kept (b : Buffer) (f : OSFile) (d : List Byte) (env : Env)
    (hf : b.file = some f) :
    (∃ f1, (b.Read d env).buf.file = some f1 ∧ f1.name = f.name ∧ f1.data = f.data) ∧
      FsOp.tempFile ∉ (b.Read d env).ops ∧ (b.Read d env).buf.max = b.max := by
  by_cases hh : 0 < b.head.length
  · rw [Read_head b d env hh]
    exact ⟨⟨f, hf, rfl, rfl⟩, by simp, rfl⟩
  · rcases env with ⟨se, rf, wf, tf, re⟩
    rcases b with ⟨mx, head, file, fr, fw, fc⟩
    simp only at hf
    subst hf
    by_cases hc : fc = fr <;> rcases se with _ | e <;> rcases rf with _ | ⟨k, e2⟩ <;>
      by_cases hn : fr < 0 <;>
      by_cases hd : d = [] <;>
      by_cases ha1 : f.data.length - f.pos = 0 <;>
      by_cases ha2 : f.data.length - fr.toNat = 0 <;>
      simp [Buffer.Read, fileSeek, fileRead, hh, hc, hn, hd, ha1, ha2]

/-- What `Write` does to an existing file, whatever the storage layer does: the file
stays the same file, and no file is created. -/
theorem Write_file_kept (b : Buffer) (f : OSFile) (p : List Byte) (env : Env)
    (hf : b.file = some f) :
    ∃ r f1, b.Write p env = some r ∧ r.buf.file = some f1 ∧ f1.name = f.name ∧
      FsOp.tempFile ∉ r.ops := by
  obtain ⟨r, hW⟩ := Write_spilled_total b f p env hf
  refine ⟨r, ?_⟩
  rcases env with ⟨se, rf, wf, tf, re⟩
  rcases b with ⟨mx, head, file, fr, fw, fc⟩
  simp only at hf
  subst hf
  by_cases hc : fc = fw <;> rcases se with _ | e <;> rcases wf with _ | ⟨k, e2⟩ <;>
    by_cases hn : fw < 0 <;>
    simp [Buffer.Write, fileSeek, fileWrite, hc, hn] at hW <;>
    subst hW <;> simp [Buffer.Write, fileSeek, fileWrite, hc, hn]

/-- The overflow branch of `Write`, whatever the storage layer does: with a boundary
that is not negative the call does not panic, and the head gets the bytes before the
boundary. -/
theorem Write_overflow_any (b : Buffer) (p : List Byte) (env : Env) (k : Nat)
    (hf : b.file = none) (hk : (k : Int) = b.max - b.head.length) (hover : k < p.length) :
    ∃ r, b.Write p env = some r ∧ r.buf.head = b.head ++ p.take k ∧ r.buf.max = b.max ∧
      (∀ e, env.tempFile = Except.error e →
        r.n = 0 ∧ r.err = some e ∧ r.buf.file = none ∧ r.ops = [FsOp.tempFile]) ∧
      (∀ name m e, env.tempFile = Except.ok name → env.writeFault = some (m, e) →
        r.n = 0 ∧ r.err = some e ∧
        r.buf.file = some ⟨name, (p.drop k).take (min m (p.length - k)),
          min m (p.length - k)⟩ ∧
        r.ops = [FsOp.tempFile, FsOp.write name (p.drop k)]) ∧
      (r.err ≠ none → b.freadOffset = r.buf.freadOffset ∧
        b.fwriteOffset = r.buf.fwriteOffset ∧ b.fcurrentOffset = r.buf.fcurrentOffset) := by
  have h1 : ¬ ((b.head.length : Int) + p.length ≤ b.max) := by omega
  have h2 : ¬ (b.max - (b.head.length : Int) < 0 ∨ (p.length : Int) < b.max - b.head.length) := by
    omega
  have h3 : (b.max - (b.head.length : Int)).toNat = k := by omega
  rcases env with ⟨se, rf, wf, tf, re⟩
  rcases tf with e | name
  · refine ⟨_, by simp only [Buffer.Write, hf, h1, h2, h3, bytesWrite, tempFile]; simp; rfl,
      rfl, rfl, ?_, ?_, ?_⟩
    · intro e1 he
      simp only [Except.error.injEq] at he
      subst he
      exact ⟨rfl, rfl, rfl, rfl⟩
    · intro name m e1 he
      simp at he
    · intro _; exact ⟨rfl, rfl, rfl⟩
  · rcases wf with _ | ⟨m, e2⟩
    · refine ⟨_, Write_overflow_ok b p _ name k hf hk hover rfl rfl, rfl, rfl, ?_, ?_, ?_⟩
      · intro e1 he; simp at he
      · intro name1 m e1 _ he; simp at he
      · intro h; simp at h
    · refine ⟨_, by simp only [Buffer.Write, hf, h1, h2, h3, bytesWrite, tempFile,
        fileWrite]; simp; rfl, rfl, rfl, ?_, ?_, ?_⟩
      · intro e1 he; simp at he
      · intro name1 m1 e1 he hw
        simp only [Except.ok.injEq] at he
        simp only [Option.some.injEq, Prod.mk.injEq] at hw
        obtain ⟨rfl, rfl⟩ := hw
        subst he
        refine ⟨rfl, rfl, ?_, rfl⟩
        simp [writeAt]
      · intro _; exact ⟨rfl, rfl, rfl⟩

/-- The length of a file after a write inside it or at its end. -/
theorem writeAt_length (data p : List Byte) (pos : Nat) (h : pos ≤ data.length) :
    (writeAt data pos p).length = max data.length (pos + p.length) := by
  simp [writeAt]
  omega

/-- `Write` keeps the offsets ordered when its file write does not fail after storing
bytes. -/
theorem Write_ordered (b : Buffer) (p : List Byte) (env : Env) (r : WriteResult)
    (ho : Ordered b) (henv : env.NoPartialWrite) (hW : b.Write p env = some r) :
    Ordered r.buf := by
  rcases env with ⟨se, rf, wf, tf, re⟩
  rcases b with ⟨mx, head, file, fr, fw, fc⟩
  cases file with
  | some f =>
    simp only [Ordered] at ho
    obtain ⟨o1, o2, o3, o4, o5, o6⟩ := ho
    have hn : ¬ fw < 0 := by omega
    have hpl : f.pos ≤ f.data.length := by omega
    have hfl : fw.toNat ≤ f.data.length := by omega
    have hl1 := writeAt_length f.data p f.pos hpl
    have hl2 := writeAt_length f.data p fw.toNat hfl
    have hl3 := writeAt_length f.data [] f.pos hpl
    have hl4 := writeAt_length f.data [] fw.toNat hfl
    by_cases hc : fc = fw
    · have o5a := o5 hc
      rcases wf with _ | ⟨k, e2⟩
      · simp [Buffer.Write, fileWrite, hc] at hW
        subst hW
        simp only [Ordered]
        simp only [List.length_nil, Nat.add_zero] at hl1 hl3
        omega
      · have hk : k = 0 := henv k e2 rfl
        subst hk
        simp [Buffer.Write, fileWrite, hc] at hW
        subst hW
        simp only [Ordered]
        simp only [List.length_nil, Nat.add_zero] at hl3
        omega
    · rcases se with _ | e
      · rcases wf with _ | ⟨k, e2⟩
        · simp [Buffer.Write, fileSeek, fileWrite, hc, hn] at hW
          subst hW
          simp only [Ordered]
          omega
        · have hk : k = 0 := henv k e2 rfl
          subst hk
          simp [Buffer.Write, fileSeek, fileWrite, hc, hn] at hW
          subst hW
          simp only [Ordered]
          simp only [List.length_nil, Nat.add_zero] at hl4
          omega
      · simp [Buffer.Write, fileSeek, hc] at hW
        subst hW
        simp only [Ordered]
        omega
  | none =>
    simp only [Ordered] at ho
    obtain ⟨rfl, rfl, rfl⟩ := ho
    by_cases hfit : (head.length : Int) + p.length ≤ mx
    · simp [Buffer.Write, hfit, bytesWrite] at hW
      subst hW
      simp [Ordered]
    · rcases tf with e | name
      · simp [Buffer.Write, hfit, bytesWrite, tempFile] at hW
        obtain ⟨_, hW⟩ := hW
        subst hW
        simp [Ordered]
      · rcases wf with _ | ⟨k, e2⟩
        · simp [Buffer.Write, hfit, bytesWrite, tempFile, fileWrite, writeAt] at hW
          obtain ⟨_, hW⟩ := hW
          subst hW
          simp [Ordered]
        · have hk : k = 0 := henv k e2 rfl
          subst hk
          simp [Buffer.Write, hfit, bytesWrite, tempFile, fileWrite, writeAt] at hW
          obtain ⟨_, hW⟩ := hW
          subst hW
          simp [Ordered]

/-- `Read` keeps the offsets ordered, whatever the storage layer does. -/
theorem Read_ordered (b : Buffer) (d : List Byte) (env : Env) (ho : Ordered b) :
    Ordered (b.Read d env).buf := by
  by_cases hh : 0 < b.head.length
  · rw [Read_head b d env hh]
    exact ho
  · rcases env with ⟨se, rf, wf, tf, re⟩
    rcases b with ⟨mx, head, file, fr, fw, fc⟩
    cases file with
    | none =>
      simp only [Ordered] at ho
      obtain ⟨rfl, rfl, rfl⟩ := ho
      simp [Buffer.Read, hh, fileRead, Ordered]
    | some f =>
      simp only [Ordered] at ho
      obtain ⟨o1, o2, o3, o4, o5, o6⟩ := ho
      have hn : ¬ fr < 0 := by omega
      by_cases hc : fc = fr
      · have o6a := o6 hc
        rcases rf with _ | ⟨k, e2⟩ <;>
          by_cases hd : d = [] <;>
          by_cases ha1 : f.data.length - f.pos = 0 <;>
          simp [Buffer.Read, fileRead, hh, hc, hd, ha1, Ordered] <;> omega
      · rcases se with _ | e <;> rcases rf with _ | ⟨k, e2⟩ <;>
          by_cases hd : d = [] <;>
          by_cases ha2 : f.data.length - fr.toNat = 0 <;>
          simp [Buffer.Read, fileSeek, fileRead, hh, hc, hn, hd, ha2, Ordered] <;> omega

/-- `Close` keeps the offsets ordered, whatever the storage layer does. -/
theorem Close_ordered (b : Buffer) (env : Env) (ho : Ordered b) :
    Ordered (b.Close env).buf := by
  rcases env with ⟨se, rf, wf, tf, re⟩
  rcases b with ⟨mx, head, file, fr, fw, fc⟩
  cases file with
  | none => simpa [Buffer.Close, Ordered] using ho
  | some f =>
    rcases re with _ | e
    · simp [Buffer.Close, osRemove, Ordered]
    · simpa [Buffer.Close, osRemove, Ordered] using ho

/-- The offsets are ordered in every state reached without a file write that fails after
storing bytes. -/
theorem reachable_ordered (c : Int) (b : Buffer)
    (hr : ReachableWhen Env.NoPartialWrite (New c) b) : Ordered b := by
  induction hr with
  | init => simp [Ordered, New]
  | step b c1 env s _ henv hs ih =>
    cases c1 with
    | write p =>
      cases hW : b.Write p env with
      | none => simp [step, hW] at hs
      | some r =>
        simp only [step, hW, Option.some.injEq] at hs
        subst hs
        exact Write_ordered b p env r ih henv hW
    | read d =>
      simp only [step, Option.some.injEq] at hs
      subst hs
      exact Read_ordered b d env ih
    | close =>
      simp only [step, Option.some.injEq] at hs
      subst hs
      exact Close_ordered b env ih

/-- A `Close` whose deletion succeeds, on a coherent buffer: the result is coherent and
has no file. -/
theorem Close_coherent (b : Buffer) (env : Env) (hc : Coherent b)
    (hre : env.removeErr = none) :
    Coherent (b.Close env).buf ∧ (b.Close env).buf.max = b.max ∧
      (b.Close env).buf.file = none := by
  rcases b with ⟨mx, head, file, fr, fw, fc⟩
  obtain ⟨hcap, hrest⟩ := hc
  simp only at hcap
  have h0 : (0 : Int) ≤ mx := by omega
  cases file with
  | none =>
    simp only at hrest
    simp [Buffer.Close, Coherent, h0, hrest]
  | some f =>
    simp [Buffer.Close, osRemove, hre, Coherent, h0]

/-- A `Write` without storage faults on a coherent buffer, seen from the file: a file
that exists is extended by the slice, and a file that is created holds the tail of the
slice from the boundary on. -/
theorem Write_fileData (b : Buffer) (p : List Byte) (env : Env) (name : Nat)
    (hc : Coherent b) (hs : env.seekErr = none) (hw : env.writeFault = none)
    (htmp : env.tempFile = Except.ok name) :
    ∃ r, b.Write p env = some r ∧ Coherent r.buf ∧ r.buf.max = b.max ∧
      fileData r.buf =
        (match b.file with
          | some _ => fileData b ++ p
          | none =>
            match r.buf.file with
            | some _ => p.drop (b.max - b.head.length).toNat
            | none => fileData b) := by
  obtain ⟨r, hW, _, _, hcr, hmax, _⟩ := Write_coherent b p env name hc hs hw htmp
  refine ⟨r, hW, hcr, hmax, ?_⟩
  obtain ⟨hcap, hrest⟩ := hc
  cases hf : b.file with
  | some f =>
    rw [hf] at hrest
    obtain ⟨hlen, hpos, hr0, hrw⟩ := hrest
    obtain ⟨ops, hW2, _⟩ := Write_spilled_ok b f p env hf hpos (by omega) hs hw
    have hwn : b.fwriteOffset.toNat = f.data.length := by omega
    rw [hwn, writeAt_end, hW] at hW2
    simp only [Option.some.injEq] at hW2
    subst hW2
    simp [fileData, hf]
  | none =>
    by_cases hfit : (b.head.length : Int) + p.length ≤ b.max
    · have hW2 := Write_fits b p env hf hfit
      rw [hW] at hW2
      simp only [Option.some.injEq] at hW2
      subst hW2
      simp [fileData, hf]
    · obtain ⟨k, hk⟩ := Int.eq_ofNat_of_zero_le (show 0 ≤ b.max - b.head.length by omega)
      have hk3 : (b.max - (b.head.length : Int)).toNat = k := by omega
      have hW2 := Write_overflow_ok b p env name k hf hk.symm (by omega) htmp hw
      rw [hW] at hW2
      simp only [Option.some.injEq] at hW2
      subst hW2
      simp [fileData, hk3]

/-- A `Read` leaves the bytes of the file as they are, whatever the storage layer
does. -/
theorem Read_fileData (b : Buffer) (d : List Byte) (env : Env) :
    fileData (b.Read d env).buf = fileData b := by
  cases hf : b.file with
  | some f =>
    obtain ⟨⟨f1, h1, _, h3⟩, _⟩ := Read_file_kept b f d env hf
    simp [fileData, hf, h1, h3]
  | none =>
    by_cases hh : 0 < b.head.length
    · rw [Read_head b d env hh]
      simp [fileData, hf]
    · have hh2 : b.head = [] := List.length_eq_zero.mp (by omega)
      obtain ⟨_, _, _, _, e5⟩ := Read_drained b d env hh2 hf
      rw [e5]
      simp [fileData, hf]

/-- A run without storage faults from a coherent buffer whose file holds `acc`: it does
not panic, ends in a coherent buffer, and the file then holds the overflow stream. -/
theorem exec_spill (l : List (Call × Env)) :
    ∀ (b : Buffer) (acc : List Byte), Coherent b → fileData b = acc → AllEnvSucceed l →
    ∃ steps b1, exec b l = some (steps, b1) ∧ Coherent b1 ∧ b1.max = b.max ∧
      fileData b1 = spillStream acc steps := by
  induction l with
  | nil =>
    intro b acc hc hacc _
    exact ⟨[], b, rfl, hc, rfl, by simpa [spillStream] using hacc⟩
  | cons ce rest ih =>
    intro b acc hc hacc hall
    obtain ⟨c, env⟩ := ce
    obtain ⟨name, henv⟩ := hall (c, env) (List.mem_cons_self _ _)
    have hrest : AllEnvSucceed rest := fun x hx => hall x (List.mem_cons_of_mem _ hx)
    simp only at henv
    subst henv
    cases c with
    | write p =>
      obtain ⟨r, hW, hcr, hmax, hfd⟩ := Write_fileData b p (Env.ok name) name hc rfl rfl rfl
      obtain ⟨steps, b1, hex, hcb, hmx, hsp⟩ := ih r.buf _ hcr rfl hrest
      refine ⟨⟨Call.write p, b, r.buf, r.n, r.err, [], r.ops⟩ :: steps, b1, ?_, hcb,
        by rw [hmx, hmax], ?_⟩
      · simp [exec, step, hW, hex]
      · rw [hsp]
        simp only [spillStream, spillNext]
        rw [hfd, hacc]
    | read d =>
      obtain ⟨hcr, hmax, _⟩ := Read_coherent b d (Env.ok name) hc rfl rfl
      obtain ⟨steps, b1, hex, hcb, hmx, hsp⟩ := ih (b.Read d (Env.ok name)).buf _ hcr rfl hrest
      refine ⟨⟨Call.read d, b, (b.Read d (Env.ok name)).buf, (b.Read d (Env.ok name)).n,
        (b.Read d (Env.ok name)).err,
        (b.Read d (Env.ok name)).p.take (b.Read d (Env.ok name)).n,
        (b.Read d (Env.ok name)).ops⟩ :: steps, b1, ?_, hcb, by rw [hmx, hmax], ?_⟩
      · simp [exec, step, hex]
      · rw [hsp]
        simp only [spillStream, spillNext]
        rw [Read_fileData, hacc]
    | close =>
      obtain ⟨hcr, hmax, hnone⟩ := Close_coherent b (Env.ok name) hc rfl
      obtain ⟨steps, b1, hex, hcb, hmx, hsp⟩ :=
        ih (b.Close (Env.ok name)).buf _ hcr rfl hrest
      refine ⟨⟨Call.close, b, (b.Close (Env.ok name)).buf, 0, (b.Close (Env.ok name)).err, [],
        (b.Close (Env.ok name)).ops⟩ :: steps, b1, ?_, hcb, by rw [hmx, hmax], ?_⟩
      · simp [exec, step, hex]
      · rw [hsp]
        simp only [spillStream, spillNext, hnone, fileData]

/-- On a coherent buffer, when the seek does not fail, `Read` and its always-seeking
variant return the same count, error and destination and leave the same buffer. -/
theorem ReadSeeking_agrees (b : Buffer) (d : List Byte) (env : Env)
    (hc : Coherent b) (hs : env.seekErr = none) :
    (b.ReadSeeking d env).n = (b.Read d env).n ∧
    (b.ReadSeeking d env).err = (b.Read d env).err ∧
    (b.ReadSeeking d env).p = (b.Read d env).p ∧
    (b.ReadSeeking d env).buf = (b.Read d env).buf := by
  by_cases hh : 0 < b.head.length
  · simp [Buffer.Read, Buffer.ReadSeeking, hh]
  · rcases env with ⟨se, rf, wf, tf, re⟩
    rcases b with ⟨mx, head, file, fr, fw, fc⟩
    obtain ⟨_, hrest⟩ := hc
    simp only at hs
    subst hs
    cases file with
    | none =>
      simp only at hrest
      obtain ⟨rfl, rfl, rfl⟩ := hrest
      simp [Buffer.Read, Buffer.ReadSeeking, hh, fileSeek, fileRead]
    | some f =>
      simp only at hrest
      obtain ⟨_, hpos, hr0, _⟩ := hrest
      have hn : ¬ fr < 0 := by omega
      by_cases hcf : fc = fr
      · rcases f with ⟨nm, data, pos⟩
        simp only at hpos
        subst hcf
        subst hpos
        rcases rf with _ | ⟨k, e2⟩ <;> by_cases hd : d = [] <;>
          by_cases ha : data.length - pos = 0 <;>
          simp [Buffer.Read, Buffer.ReadSeeking, hh, hn, fileSeek, fileRead, hd, ha]
      · rcases rf with _ | ⟨k, e2⟩ <;> by_cases hd : d = [] <;>
          by_cases ha : f.data.length - fr.toNat = 0 <;>
          simp [Buffer.Read, Buffer.ReadSeeking, hh, hn, hcf, fileSeek, fileRead, hd, ha]

/-- On a coherent buffer, when the seek does not fail, `Write` and its always-seeking
variant return the same count and error and leave the same buffer. -/
theorem WriteSeeking_agrees (b : Buffer) (p : List Byte) (env : Env)
    (hc : Coherent b) (hs : env.seekErr = none) :
    (b.WriteSeeking p env).map (fun r => (r.n, r.err, r.buf))
      = (b.Write p env).map (fun r => (r.n, r.err, r.buf)) := by
  rcases env with ⟨se, rf, wf, tf, re⟩
  rcases b with ⟨mx, head, file, fr, fw, fc⟩
  obtain ⟨_, hrest⟩ := hc
  simp only at hs
  subst hs
  cases file with
  | none => simp [Buffer.WriteSeeking]
  | some f =>
    simp only at hrest
    obtain ⟨hlen, hpos, _, _⟩ := hrest
    have hn : ¬ fw < 0 := by omega
    by_cases hcf : fc = fw
    · rcases f with ⟨nm, data, pos⟩
      simp only at hpos
      subst hcf
      subst hpos
      rcases wf with _ | ⟨k, e2⟩ <;>
        simp [Buffer.Write, Buffer.WriteSeeking, hn, fileSeek, fileWrite]
    · rcases wf with _ | ⟨k, e2⟩ <;>
        simp [Buffer.Write, Buffer.WriteSeeking, hn, hcf, fileSeek, fileWrite]

/-- A run without storage faults from a coherent buffer gives, call by call, the same
outcomes as the run of the always-seeking buffer, and both end in the same coherent
buffer. -/
theorem exec_seeking_agrees (l : List (Call × Env)) :
    ∀ b : Buffer, Coherent b → AllEnvSucceed l →
    ∃ steps steps2 b1, exec b l = some (steps, b1) ∧ execSeeking b l = some (steps2, b1) ∧
      steps.map Step.outcome = steps2.map Step.outcome ∧ Coherent b1 := by
  induction l with
  | nil =>
    intro b hc _
    exact ⟨[], [], b, rfl, rfl, rfl, hc⟩
  | cons ce rest ih =>
    intro b hc hall
    obtain ⟨c, env⟩ := ce
    obtain ⟨name, henv⟩ := hall (c, env) (List.mem_cons_self _ _)
    have hrest : AllEnvSucceed rest := fun x hx => hall x (List.mem_cons_of_mem _ hx)
    simp only at henv
    subst henv
    cases c with
    | write p =>
      obtain ⟨r, hW, _, _, hcr, _⟩ := Write_coherent b p (Env.ok name) name hc rfl rfl rfl
      have hag := WriteSeeking_agrees b p (Env.ok name) hc rfl
      rw [hW] at hag
      cases hW2 : b.WriteSeeking p (Env.ok name) with
      | none => rw [hW2] at hag; simp at hag
      | some r2 =>
        rw [hW2] at hag
        simp only [Option.map_some', Option.some.injEq, Prod.mk.injEq] at hag
        obtain ⟨h1, h2, h3⟩ := hag
        obtain ⟨steps, steps2, b1, hex, hex2, hout, hcb⟩ := ih r.buf hcr hrest
        refine ⟨⟨Call.write p, b, r.buf, r.n, r.err, [], r.ops⟩ :: steps,
          ⟨Call.write p, b, r2.buf, r2.n, r2.err, [], r2.ops⟩ :: steps2, b1, ?_, ?_, ?_, hcb⟩
        · simp [exec, step, hW, hex]
        · simp [execSeeking, stepSeeking, hW2, h3, hex2]
        · simp [Step.outcome, h1, h2, h3, hout]
    | read d =>
      obtain ⟨hcr, _⟩ := Read_coherent b d (Env.ok name) hc rfl rfl
      obtain ⟨h1, h2, h3, h4⟩ := ReadSeeking_agrees b d (Env.ok name) hc rfl
      obtain ⟨steps, steps2, b1, hex, hex2, hout, hcb⟩ :=
        ih (b.Read d (Env.ok name)).buf hcr hrest
      refine ⟨⟨Call.read d, b, (b.Read d (Env.ok name)).buf, (b.Read d (Env.ok name)).n,
          (b.Read d (Env.ok name)).err,
          (b.Read d (Env.ok name)).p.take (b.Read d (Env.ok name)).n,
          (b.Read d (Env.ok name)).ops⟩ :: steps,
        ⟨Call.read d, b, (b.ReadSeeking d (Env.ok name)).buf,
          (b.ReadSeeking d (Env.ok name)).n, (b.ReadSeeking d (Env.ok name)).err,
          (b.ReadSeeking d (Env.ok name)).p.take (b.ReadSeeking d (Env.ok name)).n,
          (b.ReadSeeking d (Env.ok name)).ops⟩ :: steps2, b1, ?_, ?_, ?_, hcb⟩
      · simp [exec, step, hex]
      · simp [execSeeking, stepSeeking, h4, hex2]
      · simp [Step.outcome, h1, h2, h3, h4, hout]
    | close =>
      obtain ⟨hcr, _⟩ := Close_coherent b (Env.ok name) hc rfl
      obtain ⟨steps, steps2, b1, hex, hex2, hout, hcb⟩ :=
        ih (b.Close (Env.ok name)).buf hcr hrest
      refine ⟨⟨Call.close, b, (b.Close (Env.ok name)).buf, 0, (b.Close (Env.ok name)).err, [],
          (b.Close (Env.ok name)).ops⟩ :: steps,
        ⟨Call.close, b, (b.Close (Env.ok name)).buf, 0, (b.Close (Env.ok name)).err, [],
          (b.Close (Env.ok name)).ops⟩ :: steps2, b1, ?_, ?_, ?_, hcb⟩
      · simp [exec, step, hex]
      · simp [execSeeking, stepSeeking, hex2]
      · simp [Step.outcome, hout]

/-- With a negative capacity every `Write` panics, so a run that does not panic consists
of `Read` and `Close` calls; these leave `New c` as it is, and the always-seeking
buffer runs in the same way. -/
theorem exec_negative (c : Int) (hc : c < 0) (l : List (Call × Env)) :
    ∀ steps b, exec (New c) l = some (steps, b) →
      b = New c ∧ execSeeking (New c) l = some (steps, b) := by
  induction l with
  | nil =>
    intro steps b hex
    simp only [exec, Option.some.injEq, Prod.mk.injEq] at hex
    obtain ⟨rfl, rfl⟩ := hex
    exact ⟨rfl, rfl⟩
  | cons ce rest ih =>
    intro steps b hex
    obtain ⟨cl, env⟩ := ce
    cases cl with
    | write p =>
      have hW : (New c).Write p env = none := by
        have h1 : ¬ ((p.length : Int) ≤ c) := by omega
        simp [Buffer.Write, New, h1, hc]
      simp [exec, step, hW] at hex
    | read d =>
      have e1 : (New c).Read d env = ⟨0, some GoError.ErrInvalid, d, New c, []⟩ := by
        simp [Buffer.Read, New, fileRead]
      have e2 : (New c).ReadSeeking d env = ⟨0, some GoError.ErrInvalid, d, New c, []⟩ := by
        simp [Buffer.ReadSeeking, New, fileSeek]
      simp only [exec, step, e1] at hex
      cases hr : exec (New c) rest with
      | none => rw [hr] at hex; simp at hex
      | some res =>
        obtain ⟨ss, b1⟩ := res
        rw [hr] at hex
        simp only [Option.some.injEq, Prod.mk.injEq] at hex
        obtain ⟨rfl, rfl⟩ := hex
        obtain ⟨g1, g2⟩ := ih ss b1 hr
        refine ⟨g1, ?_⟩
        simp only [execSeeking, stepSeeking, e2, g2]
    | close =>
      have e1 : (New c).Close env = ⟨none, New c, []⟩ := by
        simp [Buffer.Close, New]
      simp only [exec, step, e1] at hex
      cases hr : exec (New c) rest with
      | none => rw [hr] at hex; simp at hex
      | some res =>
        obtain ⟨ss, b1⟩ := res
        rw [hr] at hex
        simp only [Option.some.injEq, Prod.mk.injEq] at hex
        obtain ⟨rfl, rfl⟩ := hex
        obtain ⟨g1, g2⟩ := ih ss b1 hr
        refine ⟨g1, ?_⟩
        simp only [execSeeking, stepSeeking, e1, g2]

/-- A failing seek to the write offset makes `Write` return `(0, e)` with the error of
the seek, after that one operation; the file is not written. -/
theorem Write_seek_fails (b : Buffer) (f : OSFile) (p : List Byte) (env : Env) (e : GoError)
    (hf : b.file = some f) (hne : b.fcurrentOffset ≠ b.fwriteOffset)
    (hse : env.seekErr = some e ∨
      (env.seekErr = none ∧ b.fwriteOffset < 0 ∧ e = GoError.sys 22)) :
    b.Write p env = some ⟨0, some e, { b with fcurrentOffset := 0 },
      [FsOp.seek f.name b.fwriteOffset]⟩ := by
  rcases env with ⟨se, rf, wf, tf, re⟩
  rcases b with ⟨mx, head, file, fr, fw, fc⟩
  simp only at hf hne hse
  subst hf
  rcases hse with h | ⟨h1, h2, h3⟩
  · subst h
    simp [Buffer.Write, fileSeek, hne]
  · subst h1
    subst h3
    simp [Buffer.Write, fileSeek, hne, h2]

/-- A failing write to the existing file, reached without a seek or after a seek that
succeeded, makes `Write` return `(0, e)` with the error of the write, after that one
write; the offsets of the buffer are not advanced. -/
theorem Write_file_write_fails (b : Buffer) (f : OSFile) (p : List Byte) (env : Env)
    (k : Nat) (e : GoError) (hf : b.file = some f)
    (hseek : b.fcurrentOffset = b.fwriteOffset ∨ (env.seekErr = none ∧ 0 ≤ b.fwriteOffset))
    (hwf : env.writeFault = some (k, e)) :
    ∃ r, b.Write p env = some r ∧ r.n = 0 ∧ r.err = some e ∧
      r.ops = (if b.fcurrentOffset = b.fwriteOffset then [FsOp.write f.name p]
        else [FsOp.seek f.name b.fwriteOffset, FsOp.write f.name p]) ∧
      r.buf.fwriteOffset = b.fwriteOffset ∧ r.buf.freadOffset = b.freadOffset := by
  obtain ⟨r, hW⟩ := Write_spilled_total b f p env hf
  refine ⟨r, hW, ?_⟩
  rcases env with ⟨se, rf, wf, tf, re⟩
  rcases b with ⟨mx, head, file, fr, fw, fc⟩
  simp only at hf hseek hwf
  subst hf
  subst hwf
  by_cases hc : fc = fw
  · simp [Buffer.Write, fileWrite, hc] at hW
    subst hW
    simp [hc]
  · rcases hseek with h | ⟨h1, h2⟩
    · exact absurd h hc
    · subst h1
      have hn : ¬ fw < 0 := by omega
      simp [Buffer.Write, fileSeek, fileWrite, hc, hn] at hW
      subst hW
      simp [hc]

/-- The front of a destination that received `n` bytes of `xs`. -/
theorem take_received (xs d : List Byte) (n : Nat) (h : n ≤ xs.length) :
    (xs.take n ++ d.drop n).take n = xs.take n := by
  rw [List.take_append_of_le_length (by simp; omega)]
  exact List.take_of_length_le (by simp)

/-! ## The claims -/

/-- C1: for every capacity `c ≥ 0` and every sequence of `Write` and `Read` calls on
`New c` in which every file operation succeeds, the run does not panic, the bytes
returned by the reads so far are a prefix of the bytes passed to the writes so far, and
the pending bytes (the head, then the file between the read and the write offset) are
exactly the rest. -/
theorem C1_fifo_order (c : Int) (l : List (Call × Env)) (hc : 0 ≤ c) (hl : AllSucceed l) :
    ∃ steps b, exec (New c) l = some (steps, b) ∧
      readOut steps <+: written steps ∧
      written steps = readOut steps ++ pending b := by
  obtain ⟨steps, b, hex, _, _, hfifo, _⟩ := exec_coherent l (New c) (New_coherent c hc) hl
  have hp : pending (New c) = [] := by simp [pending, New]
  rw [hp, List.nil_append] at hfifo
  exact ⟨steps, b, hex, ⟨pending b, hfifo⟩, hfifo.symm⟩

/-- C1, at capacity 4: write eight bytes, read three, write two more, read with a
destination of ten bytes twice. -/
theorem C1_fifo_order_witness :
    (0 : Int) ≤ 4 ∧
    AllSucceed [(Call.write [65, 66, 67, 68, 69, 70, 71, 72], Env.ok 1),
      (Call.read [0, 0, 0], Env.ok 1), (Call.write [73, 74], Env.ok 1),
      (Call.read [0, 0, 0, 0, 0, 0, 0, 0, 0, 0], Env.ok 1),
      (Call.read [0, 0, 0, 0, 0, 0, 0, 0, 0, 0], Env.ok 1)] ∧
    ∃ steps b, exec (New 4) [(Call.write [65, 66, 67, 68, 69, 70, 71, 72], Env.ok 1),
      (Call.read [0, 0, 0], Env.ok 1), (Call.write [73, 74], Env.ok 1),
      (Call.read [0, 0, 0, 0, 0, 0, 0, 0, 0, 0], Env.ok 1),
      (Call.read [0, 0, 0, 0, 0, 0, 0, 0, 0, 0], Env.ok 1)] = some (steps, b) ∧
      readOut steps <+: written steps ∧
      written steps = readOut steps ++ pending b :=
  have h : AllSucceed [(Call.write [65, 66, 67, 68, 69, 70, 71, 72], Env.ok 1),
      (Call.read [0, 0, 0], Env.ok 1), (Call.write [73, 74], Env.ok 1),
      (Call.read [0, 0, 0, 0, 0, 0, 0, 0, 0, 0], Env.ok 1),
      (Call.read [0, 0, 0, 0, 0, 0, 0, 0, 0, 0], Env.ok 1)] := by
    intro ce hce
    simp only [List.mem_cons, List.mem_singleton, List.not_mem_nil, or_false] at hce
    rcases hce with rfl | rfl | rfl | rfl | rfl <;> exact ⟨rfl, 1, rfl⟩
  ⟨by decide, h, C1_fifo_order 4 _ (by decide) h⟩

/-- C2 (what the code does): `Read` on a buffer with an empty head and no file returns
`(0, os.ErrInvalid)`, not `(0, io.EOF)`, for every destination, every value of the
offsets and every behaviour of the storage layer; the nil `*os.File` rejects the
call. -/
theorem C2_read_drained_returns_ErrInvalid (mx fr fw fc : Int) (p : List Byte) (env : Env) :
    ((Buffer.mk mx [] none fr fw fc).Read p env).n = 0 ∧
    ((Buffer.mk mx [] none fr fw fc).Read p env).err = some GoError.ErrInvalid ∧
    ((Buffer.mk mx [] none fr fw fc).Read p env).err ≠ some GoError.EOF ∧
    ((Buffer.mk mx [] none fr fw fc).Read p env).ops = [] := by
  obtain ⟨h1, h2, _, h4, _⟩ := Read_drained (Buffer.mk mx [] none fr fw fc) p env rfl rfl
  refine ⟨h1, h2, ?_, h4⟩
  rw [h2]; decide

/-- C3: for every capacity `c` and every sequence of slices of total length at most `c`
written to `New c`, whatever the storage layer would do: every `Write` returns
`(len p, nil)`, performs no file operation and leaves the buffer without a file; the
head then holds the concatenation of the slices; and any sequence of `Read` calls
performs no file operation and returns a front part of that concatenation, the rest
being still in the head, so once the head is empty exactly the concatenation has been
returned, in order. -/
theorem C3_capacity_boundary (c : Int) (ws ds : List (List Byte × Env))
    (hfit : ((allBytes ws).length : Int) ≤ c) :
    ∃ wsteps b, exec (New c) (writeCalls ws) = some (wsteps, b) ∧
      wsteps.map Step.call = ws.map (fun w => Call.write w.1) ∧
      (∀ s ∈ wsteps, ∃ p, s.call = Call.write p ∧ s.n = p.length ∧ s.err = none ∧
        s.ops = [] ∧ s.post.file = none) ∧
      b.head = allBytes ws ∧ b.file = none ∧
      ∃ rsteps b1, exec b (readCalls ds) = some (rsteps, b1) ∧
        opsOf rsteps = [] ∧ b1.file = none ∧
        readOut rsteps ++ b1.head = allBytes ws ∧
        (b1.head = [] → readOut rsteps = allBytes ws) := by
  obtain ⟨wsteps, hex, hcalls, hall⟩ := exec_writes_fit ws (New c) rfl (by simpa [New] using hfit)
  obtain ⟨rsteps, b1, hex2, hb1, hops, hout⟩ :=
    exec_reads_memory ds { New c with head := (New c).head ++ allBytes ws } rfl
  have hhead : (New c).head ++ allBytes ws = allBytes ws := by simp [New]
  refine ⟨wsteps, _, hex, hcalls, hall, hhead, rfl, rsteps, b1, hex2, hops, hb1, ?_, ?_⟩
  · rw [hout]; exact hhead
  · intro h
    rw [h, List.append_nil] at hout
    rw [hout]; exact hhead

/-- C3 at capacity 8: write `ABC` and `DE`, then read with destinations of two, two and
four bytes. -/
theorem C3_capacity_boundary_witness :
    (((allBytes [([65, 66, 67], Env.ok 1), ([68, 69], Env.ok 1)]).length : Nat) : Int) ≤ 8 ∧
    (exec (New 8) (writeCalls [([65, 66, 67], Env.ok 1), ([68, 69], Env.ok 1)]
        ++ readCalls [([0, 0], Env.ok 1), ([0, 0], Env.ok 1), ([0, 0, 0, 0], Env.ok 1)])).map
      (fun r => (readOut r.1, opsOf r.1, r.2.head, r.2.file))
      = some ([65, 66, 67, 68, 69], [], [], none) ∧
    ∃ wsteps b, exec (New 8) (writeCalls [([65, 66, 67], Env.ok 1), ([68, 69], Env.ok 1)])
        = some (wsteps, b) ∧
      b.head = allBytes [([65, 66, 67], Env.ok 1), ([68, 69], Env.ok 1)] ∧ b.file = none :=
  ⟨by decide, by decide,
    (C3_capacity_boundary 8 [([65, 66, 67], Env.ok 1), ([68, 69], Env.ok 1)]
      [([0, 0], Env.ok 1), ([0, 0], Env.ok 1), ([0, 0, 0, 0], Env.ok 1)] (by decide)).imp
      (fun _ h => h.imp (fun _ g => ⟨g.1, g.2.2.2.1, g.2.2.2.2.1⟩))⟩

/-- C4: in a memory-only state with `h = len head ≤ max`, a `Write(p)` with
`h + len p > max` whose file creation and file write succeed appends `p[:max-h]` to the
head, whose length becomes `max`, creates the file with contents `p[max-h:]`, sets the
write offset and the cached offset to `len p - (max - h)`, leaves the read offset 0,
and returns `(len p, nil)`. -/
theorem C4_overflow_split (b : Buffer) (p : List Byte) (env : Env) (name : Nat)
    (hmem : MemoryOnly b) (hcap : (b.head.length : Int) ≤ b.max)
    (hover : b.max < (b.head.length : Int) + p.length)
    (htmp : env.tempFile = Except.ok name) (hw : env.writeFault = none) :
    ∃ r, b.Write p env = some r ∧ r.n = p.length ∧ r.err = none ∧
      r.buf.head = b.head ++ p.take (b.max - b.head.length).toNat ∧
      (r.buf.head.length : Int) = b.max ∧
      r.buf.file = some ⟨name, p.drop (b.max - b.head.length).toNat,
        p.length - (b.max - b.head.length).toNat⟩ ∧
      r.buf.fwriteOffset = p.length - (b.max - b.head.length) ∧
      r.buf.fcurrentOffset = p.length - (b.max - b.head.length) ∧
      r.buf.freadOffset = 0 ∧ r.buf.max = b.max ∧
      r.ops = [FsOp.tempFile, FsOp.write name (p.drop (b.max - b.head.length).toNat)] := by
  obtain ⟨hfile, hr, _, _⟩ := hmem
  obtain ⟨k, hk⟩ := Int.eq_ofNat_of_zero_le (show 0 ≤ b.max - b.head.length by omega)
  have hk2 : (b.max - (b.head.length : Int)).toNat = k := by omega
  rw [hk2]
  refine ⟨_, Write_overflow_ok b p env name k hfile hk.symm (by omega) htmp hw, rfl, rfl, rfl,
    ?_, rfl, ?_, ?_, hr, rfl, rfl⟩
  · simp only [List.length_append, List.length_take]; push_cast; omega
  · simp only []; omega
  · simp only []; omega

/-- C4 at capacity 4: `Write("ABCDEFGH")` leaves `ABCD` in the head and `EFGH` in the
file. -/
theorem C4_overflow_split_witness :
    MemoryOnly (New 4) ∧ (((New 4).head.length : Nat) : Int) ≤ (New 4).max ∧
    (New 4).max < (((New 4).head.length : Nat) : Int)
      + (([65, 66, 67, 68, 69, 70, 71, 72] : List Byte).length : Nat) ∧
    (New 4).Write [65, 66, 67, 68, 69, 70, 71, 72] (Env.ok 1) =
      some ⟨8, none, ⟨4, [65, 66, 67, 68], some ⟨1, [69, 70, 71, 72], 4⟩, 0, 4, 4⟩,
        [FsOp.tempFile, FsOp.write 1 [69, 70, 71, 72]]⟩ ∧
    ∃ r, (New 4).Write [65, 66, 67, 68, 69, 70, 71, 72] (Env.ok 1) = some r ∧
      r.n = 8 ∧ r.err = none ∧ (r.buf.head.length : Int) = 4 :=
  ⟨⟨rfl, rfl, rfl, rfl⟩, by decide, by decide, by decide,
    (C4_overflow_split (New 4) [65, 66, 67, 68, 69, 70, 71, 72] (Env.ok 1) 1
      ⟨rfl, rfl, rfl, rfl⟩ (by decide) (by decide) rfl rfl).imp
      (fun _ h => ⟨h.1, h.2.1, h.2.2.1, h.2.2.2.2.1⟩)⟩

/-- C5 (what the claim says fails after a failed file write): `New(0)`, then a `Write`
of two bytes whose file write stores one byte and fails, leaves a file holding that
byte at position 1 while all three offsets are still 0. The next `Write` of `[3, 4]`
succeeds, returns `(2, nil)` and moves the write offset from 0 to 2, but the bytes
land at position 1: the file holds `[1, 3, 4]`, and the two bytes at the old write
offset are `[1, 3]`, not `[3, 4]`. -/
theorem C5_counterexample :
    (New 0).Write [1, 2] ⟨none, none, some (1, GoError.sys 28), Except.ok 0, none⟩ =
      some ⟨0, some (GoError.sys 28), ⟨0, [], some ⟨0, [1], 1⟩, 0, 0, 0⟩,
        [FsOp.tempFile, FsOp.write 0 [1, 2]]⟩ ∧
    (Buffer.mk 0 [] (some ⟨0, [1], 1⟩) 0 0 0).Write [3, 4] (Env.ok 0) =
      some ⟨2, none, ⟨0, [], some ⟨0, [1, 3, 4], 3⟩, 0, 2, 2⟩, [FsOp.write 0 [3, 4]]⟩ ∧
    (([1, 3, 4] : List Byte).drop 0).take 2 ≠ [3, 4] := by
  decide

/-- C5 (amended): in every state with a disk segment, `Write p` does not panic and leaves
the head unchanged, whatever the storage layer does; and if the cached offset equals
the position of the file and the call succeeds, all of `p` is stored in the file at the
write offset (the bytes before it and after the written range are kept, so a file that
ends at the write offset is extended by `p`), the count is `len p`, and the write
offset and the cached offset advance by `len p`. -/
theorem C5_one_way_overflow (b : Buffer) (f : OSFile) (p : List Byte) (env : Env)
    (hf : b.file = some f) :
    ∃ r, b.Write p env = some r ∧ r.buf.head = b.head ∧ r.buf.max = b.max ∧
      ((f.pos : Int) = b.fcurrentOffset → r.err = none →
        r.n = p.length ∧
        r.buf.file = some ⟨f.name, writeAt f.data b.fwriteOffset.toNat p,
          b.fwriteOffset.toNat + p.length⟩ ∧
        ((f.data.length : Int) = b.fwriteOffset →
          r.buf.file = some ⟨f.name, f.data ++ p, f.data.length + p.length⟩) ∧
        r.buf.fwriteOffset = b.fwriteOffset + p.length ∧
        r.buf.fcurrentOffset = b.fwriteOffset + p.length ∧
        r.buf.freadOffset = b.freadOffset) := by
  obtain ⟨r, hW⟩ := Write_spilled_total b f p env hf
  refine ⟨r, hW, ?_⟩
  rcases env with ⟨se, rf, wf, tf, re⟩
  rcases b with ⟨mx, head, file, fr, fw, fc⟩
  simp only at hf
  subst hf
  by_cases hc : fc = fw
  · subst hc
    rcases wf with _ | ⟨k, e2⟩
    · simp [Buffer.Write, fileWrite] at hW
      subst hW
      refine ⟨rfl, rfl, ?_⟩
      intro hpos _
      dsimp only at hpos ⊢
      have hp : f.pos = fc.toNat := by omega
      rw [hp]
      refine ⟨rfl, rfl, ?_, rfl, rfl, rfl⟩
      intro hlen
      have hl : fc.toNat = f.data.length := by omega
      rw [hl, writeAt_end]
    · simp [Buffer.Write, fileWrite] at hW
      subst hW
      refine ⟨rfl, rfl, ?_⟩
      intro _ herr
      simp at herr
  · rcases se with _ | e
    · by_cases hn : fw < 0
      · simp [Buffer.Write, fileSeek, hc, hn] at hW
        subst hW
        refine ⟨rfl, rfl, ?_⟩
        intro _ herr
        simp at herr
      · rcases wf with _ | ⟨k, e2⟩
        · simp [Buffer.Write, fileSeek, fileWrite, hc, hn] at hW
          subst hW
          refine ⟨rfl, rfl, ?_⟩
          intro _ _
          dsimp only
          refine ⟨rfl, rfl, ?_, rfl, rfl, rfl⟩
          intro hlen
          have hl : fw.toNat = f.data.length := by omega
          rw [hl, writeAt_end]
        · simp [Buffer.Write, fileSeek, fileWrite, hc, hn] at hW
          subst hW
          refine ⟨rfl, rfl, ?_⟩
          intro _ herr
          simp at herr
    · simp [Buffer.Write, fileSeek, hc] at hW
      subst hW
      refine ⟨rfl, rfl, ?_⟩
      intro _ herr
      simp at herr

/-- C5 (amended) on a spilled buffer whose head has been drained by reads: capacity 4,
file `EFGH`, read offset 2; writing `IJ` leaves the head empty and extends the file. -/
theorem C5_one_way_overflow_witness :
    (Buffer.mk 4 [] (some ⟨1, [69, 70, 71, 72], 2⟩) 2 4 2).file
      = some ⟨1, [69, 70, 71, 72], 2⟩ ∧
    (Buffer.mk 4 [] (some ⟨1, [69, 70, 71, 72], 2⟩) 2 4 2).Write [73, 74] (Env.ok 9) =
      some ⟨2, none, ⟨4, [], some ⟨1, [69, 70, 71, 72, 73, 74], 6⟩, 2, 6, 6⟩,
        [FsOp.seek 1 4, FsOp.write 1 [73, 74]]⟩ ∧
    ∃ r, (Buffer.mk 4 [] (some ⟨1, [69, 70, 71, 72], 2⟩) 2 4 2).Write [73, 74] (Env.ok 9)
        = some r ∧ r.buf.head = [] ∧ r.buf.max = 4 :=
  ⟨rfl, by decide,
    (C5_one_way_overflow (Buffer.mk 4 [] (some ⟨1, [69, 70, 71, 72], 2⟩) 2 4 2)
      ⟨1, [69, 70, 71, 72], 2⟩ [73, 74] (Env.ok 9) rfl).imp
      (fun _ h => ⟨h.1, h.2.1, h.2.2.1⟩)⟩

/-- C6 (what the claim says fails when reads drain the head before any overflow): on
`New(4)`, write `ABCD`, read four bytes, write `EFGH`. No file is ever created and all
eight bytes are placed in the head, although the bytes `EFGH` have indices 4 to 7 in
the write stream. -/
theorem C6_counterexample :
    (exec (New 4) [(Call.write [65, 66, 67, 68], Env.ok 1),
        (Call.read [0, 0, 0, 0], Env.ok 1),
        (Call.write [69, 70, 71, 72], Env.ok 1)]).map
      (fun r => (headIn r.1, diskIn (opsOf r.1), (written r.1).take 4, r.2.file))
      = some ([65, 66, 67, 68, 69, 70, 71, 72], [], [65, 66, 67, 68], none) := by
  decide

/-- C6 (amended): for every sequence of `Write` and `Read` calls on `New(N)`, `N ≥ 0`,
with all file operations succeeding, a written byte is placed in the head exactly
when its index in the write stream is less than `N + R`, where `R` is the number of
bytes returned by the reads issued while no disk segment existed, and every other
byte is passed to the file; reads issued after the disk segment exists do not count,
so head capacity they free is never reused. -/
theorem C6_first_bytes_resident (c : Int) (l : List (Call × Env)) (hc : 0 ≤ c)
    (hl : AllSucceed l) :
    ∃ steps b, exec (New c) l = some (steps, b) ∧
      headIn steps = (written steps).take (c.toNat + readBeforeSpill steps) ∧
      diskIn (opsOf steps) = (written steps).drop (c.toNat + readBeforeSpill steps) := by
  obtain ⟨steps, b, hex, hcoh, hmax, _, hio, _, hB, hC⟩ :=
    exec_coherent l (New c) (New_coherent c hc) hl
  refine ⟨steps, b, hex, ?_⟩
  have hn : (New c).file = none := rfl
  have hmx : (New c).max = c := rfl
  have hh : (New c).head.length = 0 := rfl
  by_cases hbf : b.file = none
  · obtain ⟨h1, h2⟩ := hB hn hbf
    have hcap := hcoh.1
    rw [h1, List.append_nil] at hio
    rw [hh] at h2
    rw [hmax, hmx] at hcap
    have hlen : (written steps).length ≤ c.toNat + readBeforeSpill steps := by
      rw [← hio]; omega
    rw [h1, hio, List.take_of_length_le hlen, List.drop_eq_nil_of_le hlen]
    exact ⟨rfl, rfl⟩
  · have h3 := hC hn hbf
    rw [hh, hmx] at h3
    have hlen : (headIn steps).length = c.toNat + readBeforeSpill steps := by
      push_cast at h3; omega
    rw [← hio, ← hlen, List.take_left, List.drop_left]
    exact ⟨rfl, rfl⟩

/-- C6 (amended) at capacity 4: write `ABCD`, read two bytes, write `EFGH`, read with a
destination of eight bytes, write `IJ`. -/
theorem C6_first_bytes_resident_witness :
    (0 : Int) ≤ 4 ∧
    AllSucceed [(Call.write [65, 66, 67, 68], Env.ok 1), (Call.read [0, 0], Env.ok 1),
      (Call.write [69, 70, 71, 72], Env.ok 1), (Call.read [0, 0, 0, 0, 0, 0, 0, 0], Env.ok 1),
      (Call.write [73, 74], Env.ok 1)] ∧
    ∃ steps b, exec (New 4) [(Call.write [65, 66, 67, 68], Env.ok 1),
        (Call.read [0, 0], Env.ok 1), (Call.write [69, 70, 71, 72], Env.ok 1),
        (Call.read [0, 0, 0, 0, 0, 0, 0, 0], Env.ok 1),
        (Call.write [73, 74], Env.ok 1)] = some (steps, b) ∧
      headIn steps = (written steps).take ((4 : Int).toNat + readBeforeSpill steps) ∧
      diskIn (opsOf steps) = (written steps).drop ((4 : Int).toNat + readBeforeSpill steps) :=
  have h : AllSucceed [(Call.write [65, 66, 67, 68], Env.ok 1), (Call.read [0, 0], Env.ok 1),
      (Call.write [69, 70, 71, 72], Env.ok 1), (Call.read [0, 0, 0, 0, 0, 0, 0, 0], Env.ok 1),
      (Call.write [73, 74], Env.ok 1)] := by
    intro ce hce
    simp only [List.mem_cons, List.mem_singleton, List.not_mem_nil, or_false] at hce
    rcases hce with rfl | rfl | rfl | rfl | rfl <;> exact ⟨rfl, 1, rfl⟩
  ⟨by decide, h, C6_first_bytes_resident 4 _ (by decide) h⟩

/-- C7: in every state reachable from `New c`, whatever the storage layer did on the
way, a `Close` whose file deletion succeeds (or that has no file to delete) returns
nil and leaves exactly the buffer `New c`; hence every later sequence of calls runs as
it does on `New c`. -/
theorem C7_reuse_after_close (c : Int) (b : Buffer) (env : Env)
    (hr : Reachable (New c) b) (hrm : env.removeErr = none ∨ b.file = none) :
    (b.Close env).err = none ∧ (b.Close env).buf = New c ∧
      ∀ l, exec (b.Close env).buf l = exec (New c) l := by
  obtain ⟨⟨_, _, _, ht⟩, hmax, _⟩ := reachable_tidy (New c) b hr (New_tidy c)
  have hmx : b.max = c := hmax
  have key : (b.Close env).err = none ∧ (b.Close env).buf = New c := by
    rcases b with ⟨mx, head, file, fr, fw, fc⟩
    simp only at ht hmx hrm
    subst hmx
    cases file with
    | none =>
      obtain ⟨rfl, rfl, rfl⟩ := ht rfl
      simp [Buffer.Close, New]
    | some f =>
      rcases hrm with h | h
      · simp [Buffer.Close, osRemove, h, New]
      · simp at h
  exact ⟨key.1, key.2, fun l => by rw [key.2]⟩

/-- C7 on the buffer left by `New(4)` and a write of eight bytes. -/
theorem C7_reuse_after_close_witness :
    Reachable (New 4) ⟨4, [65, 66, 67, 68], some ⟨1, [69, 70, 71, 72], 4⟩, 0, 4, 4⟩ ∧
    ((Env.ok 1).removeErr = none ∨
      (Buffer.mk 4 [65, 66, 67, 68] (some ⟨1, [69, 70, 71, 72], 4⟩) 0 4 4).file = none) ∧
    ((Buffer.mk 4 [65, 66, 67, 68] (some ⟨1, [69, 70, 71, 72], 4⟩) 0 4 4).Close (Env.ok 1)).err
      = none ∧
    ((Buffer.mk 4 [65, 66, 67, 68] (some ⟨1, [69, 70, 71, 72], 4⟩) 0 4 4).Close (Env.ok 1)).buf
      = New 4 :=
  have hr : Reachable (New 4) ⟨4, [65, 66, 67, 68], some ⟨1, [69, 70, 71, 72], 4⟩, 0, 4, 4⟩ :=
    Reachable.step (New 4) (Call.write [65, 66, 67, 68, 69, 70, 71, 72]) (Env.ok 1)
      ⟨Call.write [65, 66, 67, 68, 69, 70, 71, 72], New 4,
        ⟨4, [65, 66, 67, 68], some ⟨1, [69, 70, 71, 72], 4⟩, 0, 4, 4⟩, 8, none, [],
        [FsOp.tempFile, FsOp.write 1 [69, 70, 71, 72]]⟩ Reachable.init (by decide)
  ⟨hr, Or.inl rfl,
    (C7_reuse_after_close 4 _ (Env.ok 1) hr (Or.inl rfl)).1,
    (C7_reuse_after_close 4 _ (Env.ok 1) hr (Or.inl rfl)).2.1⟩

/-- C8: when a file exists and `os.Remove` fails with `e`, `Close` returns exactly `e`,
keeps the file reference and the three offsets, and has already emptied the head. -/
theorem C8_failed_close (b : Buffer) (f : OSFile) (e : GoError) (env : Env)
    (hf : b.file = some f) (he : env.removeErr = some e) :
    (b.Close env).err = some e ∧ (b.Close env).buf.file = some f ∧
    (b.Close env).buf.freadOffset = b.freadOffset ∧
    (b.Close env).buf.fwriteOffset = b.fwriteOffset ∧
    (b.Close env).buf.fcurrentOffset = b.fcurrentOffset ∧
    (b.Close env).buf.head = [] ∧ (b.Close env).buf.max = b.max ∧
    (b.Close env).ops = [FsOp.remove f.name] := by
  simp [Buffer.Close, hf, he, osRemove]

/-- C8 on a spilled buffer whose file cannot be removed. -/
theorem C8_failed_close_witness :
    (Buffer.mk 4 [65, 66, 67, 68] (some ⟨1, [69, 70, 71, 72], 4⟩) 0 4 4).file
      = some ⟨1, [69, 70, 71, 72], 4⟩ ∧
    (Env.mk none none none (Except.ok 1) (some (GoError.sys 13))).removeErr
      = some (GoError.sys 13) ∧
    (Buffer.mk 4 [65, 66, 67, 68] (some ⟨1, [69, 70, 71, 72], 4⟩) 0 4 4).Close
        (Env.mk none none none (Except.ok 1) (some (GoError.sys 13)))
      = ⟨some (GoError.sys 13), ⟨4, [], some ⟨1, [69, 70, 71, 72], 4⟩, 0, 4, 4⟩,
          [FsOp.remove 1]⟩ ∧
    ((Buffer.mk 4 [65, 66, 67, 68] (some ⟨1, [69, 70, 71, 72], 4⟩) 0 4 4).Close
        (Env.mk none none none (Except.ok 1) (some (GoError.sys 13)))).err
      = some (GoError.sys 13) :=
  ⟨rfl, rfl, by decide,
    (C8_failed_close (Buffer.mk 4 [65, 66, 67, 68] (some ⟨1, [69, 70, 71, 72], 4⟩) 0 4 4)
      ⟨1, [69, 70, 71, 72], 4⟩ (GoError.sys 13)
      (Env.mk none none none (Except.ok 1) (some (GoError.sys 13))) rfl rfl).1⟩

/-- C9: in every state reachable from the zero value of `Buffer`, whatever the storage
layer did on the way, the head is empty; and a `Write` of a non-empty `p` whose file
operations succeed returns `(len p, nil)`, leaves the head empty, passes all of `p` to
the file write, and leaves a file that holds `p` in the `len p` bytes before its
position. -/
theorem C9_zero_value_pure_disk (b : Buffer) (p : List Byte) (env : Env)
    (hr : Reachable zeroValue b) (hp : p ≠ []) (he : env.Succeeds) :
    b.head = [] ∧
    ∃ r f, b.Write p env = some r ∧ r.n = p.length ∧ r.err = none ∧ r.buf.head = [] ∧
      r.buf.file = some f ∧ diskIn r.ops = p ∧
      (f.data.drop (f.pos - p.length)).take p.length = p := by
  obtain ⟨⟨_, hw0, _, _⟩, hmax, hcap⟩ := reachable_tidy zeroValue b hr (New_tidy 0)
  have hmx : b.max = 0 := hmax
  have hhead : b.head = [] := by
    have h := hcap (by simp [zeroValue, New])
    rw [hmx] at h
    exact List.length_eq_zero.mp (by omega)
  refine ⟨hhead, ?_⟩
  obtain ⟨name, rfl⟩ := he
  have hplen : 0 < p.length := List.length_pos.mpr hp
  cases hf : b.file with
  | some f =>
    obtain ⟨pos, ops, hW, hops, _⟩ := Write_spilled_any b f p (Env.ok name) hf hw0 rfl rfl
    refine ⟨_, _, hW, rfl, rfl, hhead, rfl, hops, ?_⟩
    simp only [Nat.add_sub_cancel]
    exact writeAt_window f.data p pos
  | none =>
    have hW := Write_overflow_ok b p (Env.ok name) name 0 hf (by rw [hmx, hhead]; simp) hplen
      rfl rfl
    refine ⟨_, _, hW, rfl, rfl, by simp [hhead], rfl, by simp [diskIn], ?_⟩
    simp

/-- C9 on the zero value itself. -/
theorem C9_zero_value_pure_disk_witness :
    Reachable zeroValue zeroValue ∧ ([65, 66] : List Byte) ≠ [] ∧ (Env.ok 1).Succeeds ∧
    zeroValue.Write [65, 66] (Env.ok 1) =
      some ⟨2, none, ⟨0, [], some ⟨1, [65, 66], 2⟩, 0, 2, 2⟩,
        [FsOp.tempFile, FsOp.write 1 [65, 66]]⟩ ∧
    zeroValue.head = [] ∧
    ∃ r f, zeroValue.Write [65, 66] (Env.ok 1) = some r ∧ r.n = 2 ∧ r.err = none ∧
      r.buf.head = [] ∧ r.buf.file = some f ∧ diskIn r.ops = [65, 66] ∧
      (f.data.drop (f.pos - 2)).take 2 = [65, 66] :=
  ⟨Reachable.init, by decide, ⟨1, rfl⟩, by decide,
    C9_zero_value_pure_disk zeroValue [65, 66] (Env.ok 1) Reachable.init (by decide) ⟨1, rfl⟩⟩

/-- C10 (the claim fails on the code if a file read delivers bytes together with an
error): `New(4)`, `Write("ABCDEFGH")`, a `Read` of four bytes (the head), a `Read` of two
bytes (`EF` from the file), then a `Read` with a four-byte destination during which the
file read delivers the last two bytes `GH` together with `io.EOF`. That call returns
`(0, io.EOF)`, not the two bytes: `freadOffset` stays at 2, while the position of the
file has moved to 4 and the cached offset still says 2, so a further `Read` does not
seek and returns `(0, io.EOF)` again. The list gives, for each call, the count, the
error and the bytes the caller received. `(*os.File).Read` itself never returns bytes
together with an error; the amended statement is about file reads of that kind. -/
theorem C10_counterexample :
    (exec (New 4) [(Call.write [65, 66, 67, 68, 69, 70, 71, 72], Env.ok 1),
        (Call.read [0, 0, 0, 0], Env.ok 1),
        (Call.read [0, 0], Env.ok 1),
        (Call.read [0, 0, 0, 0], ⟨none, some (2, GoError.EOF), none, Except.ok 1, none⟩),
        (Call.read [0, 0, 0, 0], Env.ok 1)]).map
      (fun r => (r.1.map (fun s => (s.n, s.err, s.out)), r.2))
      = some ([(8, none, []), (4, none, [65, 66, 67, 68]), (2, none, [69, 70]),
          (0, some GoError.EOF, []), (0, some GoError.EOF, [])],
        ⟨4, [], some ⟨1, [69, 70, 71, 72], 4⟩, 2, 4, 2⟩) := by
  decide

/-- C10 (amended): with an empty head and a file, when the file read behaves as that of
`*os.File` (an error, end of file included, only together with zero bytes), no byte
taken from the file is dropped, whatever else the storage layer does. Here `start` is
the position the file read starts from: the read offset after a seek, the position of
the file otherwise. If `Read` returns no error, it returns `n` bytes, these are the `n`
bytes of the file from `start` on (as many as the destination and the file allow), the
file position is `start + n`, and the read offset and the cached offset advance to
`freadOffset + n`. If `Read` returns an error, it returns 0 bytes, the read offset is
unchanged and the file read has not moved the file position. -/
theorem C10_no_lost_bytes (b : Buffer) (f : OSFile) (d : List Byte) (env : Env)
    (hh : b.head = []) (hf : b.file = some f) (henv : env.ReadsLikeOSFile) :
    ((b.Read d env).err = none →
      (b.Read d env).n = (if d = [] then 0 else min d.length (f.data.length -
        (if b.fcurrentOffset = b.freadOffset then f.pos else b.freadOffset.toNat))) ∧
      (b.Read d env).p.take (b.Read d env).n =
        (f.data.drop (if b.fcurrentOffset = b.freadOffset then f.pos
          else b.freadOffset.toNat)).take (b.Read d env).n ∧
      (b.Read d env).buf.file = some ⟨f.name, f.data,
        (if b.fcurrentOffset = b.freadOffset then f.pos else b.freadOffset.toNat)
          + (b.Read d env).n⟩ ∧
      (b.Read d env).buf.freadOffset = b.freadOffset + (b.Read d env).n ∧
      (b.Read d env).buf.fcurrentOffset = b.freadOffset + (b.Read d env).n) ∧
    (∀ e, (b.Read d env).err = some e →
      (b.Read d env).n = 0 ∧ (b.Read d env).buf.freadOffset = b.freadOffset ∧
      ((b.Read d env).buf.file = some f ∨
        (b.Read d env).buf.file = some ⟨f.name, f.data, b.freadOffset.toNat⟩)) := by
  rcases env with ⟨se, rf, wf, tf, re⟩
  rcases b with ⟨mx, head, file, fr, fw, fc⟩
  simp only at hh hf
  subst hh
  subst hf
  have hk : ∀ k e, rf = some (k, e) → k = 0 := henv
  by_cases hc : fc = fr
  · rcases rf with _ | ⟨k, e2⟩
    · by_cases hd : d = []
      · simp [Buffer.Read, fileRead, hc, hd]
      · by_cases ha : f.data.length - f.pos = 0
        · simp [Buffer.Read, fileRead, hc, hd, ha]
        · have hle : min d.length (f.data.length - f.pos) ≤ (f.data.drop f.pos).length := by
            simp
          simp [Buffer.Read, fileRead, hc, hd, ha, take_received _ _ _ hle]
    · have h0 : k = 0 := hk k e2 rfl
      subst h0
      by_cases hd : d = []
      · simp [Buffer.Read, fileRead, hc, hd]
      · simp [Buffer.Read, fileRead, hc, hd]
  · rcases se with _ | e1
    · by_cases hn : fr < 0
      · simp [Buffer.Read, fileSeek, hc, hn]
      · rcases rf with _ | ⟨k, e2⟩
        · by_cases hd : d = []
          · simp [Buffer.Read, fileSeek, fileRead, hc, hn, hd]
          · by_cases ha : f.data.length - fr.toNat = 0
            · simp [Buffer.Read, fileSeek, fileRead, hc, hn, hd, ha]
            · have hle : min d.length (f.data.length - fr.toNat)
                  ≤ (f.data.drop fr.toNat).length := by simp
              simp [Buffer.Read, fileSeek, fileRead, hc, hn, hd, ha, take_received _ _ _ hle]
        · have h0 : k = 0 := hk k e2 rfl
          subst h0
          by_cases hd : d = []
          · simp [Buffer.Read, fileSeek, fileRead, hc, hn, hd]
          · simp [Buffer.Read, fileSeek, fileRead, hc, hn, hd]
    · simp [Buffer.Read, fileSeek, hc]

/-- C10 (amended) on a spilled buffer with `GH` unread: a `Read` into four bytes returns
the two bytes and moves the read offset from 2 to 4; the next `Read` meets the end of
the file and returns `(0, io.EOF)` with the read offset unchanged. -/
theorem C10_no_lost_bytes_witness :
    (Buffer.mk 4 [] (some ⟨1, [69, 70, 71, 72], 2⟩) 2 4 2).head = [] ∧
    (Buffer.mk 4 [] (some ⟨1, [69, 70, 71, 72], 2⟩) 2 4 2).file
      = some ⟨1, [69, 70, 71, 72], 2⟩ ∧
    (Env.ok 1).ReadsLikeOSFile ∧
    (Buffer.mk 4 [] (some ⟨1, [69, 70, 71, 72], 2⟩) 2 4 2).Read [0, 0, 0, 0] (Env.ok 1)
      = ⟨2, none, [71, 72, 0, 0], ⟨4, [], some ⟨1, [69, 70, 71, 72], 4⟩, 4, 4, 4⟩,
          [FsOp.read 1 4]⟩ ∧
    (Buffer.mk 4 [] (some ⟨1, [69, 70, 71, 72], 4⟩) 4 4 4).Read [0, 0, 0, 0] (Env.ok 1)
      = ⟨0, some GoError.EOF, [0, 0, 0, 0], ⟨4, [], some ⟨1, [69, 70, 71, 72], 4⟩, 4, 4, 4⟩,
          [FsOp.read 1 4]⟩ ∧
    ((Buffer.mk 4 [] (some ⟨1, [69, 70, 71, 72], 2⟩) 2 4 2).Read [0, 0, 0, 0]
        (Env.ok 1)).buf.freadOffset
      = (Buffer.mk 4 [] (some ⟨1, [69, 70, 71, 72], 2⟩) 2 4 2).freadOffset
        + (((Buffer.mk 4 [] (some ⟨1, [69, 70, 71, 72], 2⟩) 2 4 2).Read [0, 0, 0, 0]
            (Env.ok 1)).n : Nat) ∧
    ((Buffer.mk 4 [] (some ⟨1, [69, 70, 71, 72], 4⟩) 4 4 4).Read [0, 0, 0, 0]
        (Env.ok 1)).n = 0 :=
  have hok : (Env.ok 1).ReadsLikeOSFile := by
    intro k e h
    simp [Env.ok] at h
  ⟨rfl, rfl, hok, by decide, by decide,
    ((C10_no_lost_bytes (Buffer.mk 4 [] (some ⟨1, [69, 70, 71, 72], 2⟩) 2 4 2)
      ⟨1, [69, 70, 71, 72], 2⟩ [0, 0, 0, 0] (Env.ok 1) rfl rfl hok).1 (by decide)).2.2.2.1,
    ((C10_no_lost_bytes (Buffer.mk 4 [] (some ⟨1, [69, 70, 71, 72], 4⟩) 4 4 4)
      ⟨1, [69, 70, 71, 72], 4⟩ [0, 0, 0, 0] (Env.ok 1) rfl rfl hok).2 GoError.EOF
      (by decide)).1⟩

/-- C11 (what the claim says fails after a file write that stored bytes and failed):
on `New(0)`, `Write("AB")` succeeds; `Write("CD")` stores one byte in the file and then
fails, so the write offset stays 2 while the file holds three bytes; a `Read` into four
bytes then seeks to 0 and reads all three, and the read offset 3 is beyond the write
offset 2. The list gives, for each call, the count, the error and the bytes the caller
received. -/
theorem C11_counterexample :
    (exec (New 0) [(Call.write [65, 66], Env.ok 1),
        (Call.write [67, 68], ⟨none, none, some (1, GoError.sys 28), Except.ok 1, none⟩),
        (Call.read [0, 0, 0, 0], Env.ok 1)]).map
      (fun r => (r.1.map (fun s => (s.n, s.err, s.out)), r.2))
      = some ([(2, none, []), (0, some (GoError.sys 28), []), (3, none, [65, 66, 67])],
          ⟨0, [], some ⟨1, [65, 66, 67], 3⟩, 3, 2, 3⟩) ∧
    ¬ ((Buffer.mk 0 [] (some ⟨1, [65, 66, 67], 3⟩) 3 2 3).freadOffset
        ≤ (Buffer.mk 0 [] (some ⟨1, [65, 66, 67], 3⟩) 3 2 3).fwriteOffset) := by
  decide

/-- C11 (amended): in every state reachable from `New c` by `Write`, `Read` and `Close`
calls in which no file write fails after storing bytes (any other file operation may
fail), `0 ≤ freadOffset ≤ fwriteOffset`; and when a file exists it is exactly as long
as the write offset, so a `Read` never moves the read offset beyond the bytes written
to the file. -/
theorem C11_cursor_ordering (c : Int) (b : Buffer)
    (hr : ReachableWhen Env.NoPartialWrite (New c) b) :
    0 ≤ b.freadOffset ∧ b.freadOffset ≤ b.fwriteOffset ∧
      ∀ f, b.file = some f → (f.data.length : Int) = b.fwriteOffset := by
  have ho := reachable_ordered c b hr
  cases hf : b.file with
  | none =>
    simp only [Ordered, hf] at ho
    obtain ⟨h1, h2, _⟩ := ho
    refine ⟨by omega, by omega, fun f h => by simp at h⟩
  | some f =>
    simp only [Ordered, hf] at ho
    obtain ⟨h1, h2, h3, _⟩ := ho
    refine ⟨h2, h3, fun f1 h => ?_⟩
    simp only [Option.some.injEq] at h
    subst h
    exact h1

/-- C11 (amended) on the buffer left by `New(0)`, `Write("AB")` and a `Read` whose seek
fails. -/
theorem C11_cursor_ordering_witness :
    ReachableWhen Env.NoPartialWrite (New 0) ⟨0, [], some ⟨1, [65, 66], 2⟩, 0, 2, 0⟩ ∧
    (0 : Int) ≤ (Buffer.mk 0 [] (some ⟨1, [65, 66], 2⟩) 0 2 0).freadOffset ∧
    (Buffer.mk 0 [] (some ⟨1, [65, 66], 2⟩) 0 2 0).freadOffset
      ≤ (Buffer.mk 0 [] (some ⟨1, [65, 66], 2⟩) 0 2 0).fwriteOffset :=
  have h1 : ReachableWhen Env.NoPartialWrite (New 0) ⟨0, [], some ⟨1, [65, 66], 2⟩, 0, 2, 2⟩ :=
    ReachableWhen.step (New 0) (Call.write [65, 66]) (Env.ok 1)
      ⟨Call.write [65, 66], New 0, ⟨0, [], some ⟨1, [65, 66], 2⟩, 0, 2, 2⟩, 2, none, [],
        [FsOp.tempFile, FsOp.write 1 [65, 66]]⟩
      ReachableWhen.init (by intro k e h; simp [Env.ok] at h) (by decide)
  have h2 : ReachableWhen Env.NoPartialWrite (New 0) ⟨0, [], some ⟨1, [65, 66], 2⟩, 0, 2, 0⟩ :=
    ReachableWhen.step ⟨0, [], some ⟨1, [65, 66], 2⟩, 0, 2, 2⟩ (Call.read [0])
      ⟨some (GoError.sys 5), none, none, Except.ok 1, none⟩
      ⟨Call.read [0], ⟨0, [], some ⟨1, [65, 66], 2⟩, 0, 2, 2⟩,
        ⟨0, [], some ⟨1, [65, 66], 2⟩, 0, 2, 0⟩, 0, some (GoError.sys 5), [],
        [FsOp.seek 1 0]⟩
      h1 (by intro k e h; simp at h) (by decide)
  ⟨h2, (C11_cursor_ordering 0 _ h2).1, (C11_cursor_ordering 0 _ h2).2.1⟩

/-- C12: in every state reachable from `New c`, `c ≥ 0`, by `Write`, `Read` and `Close`
calls, whatever the storage layer does (failing file operations included), the head
holds at most `c` bytes. -/
theorem C12_memory_bound (c : Int) (b : Buffer) (hc : 0 ≤ c) (hr : Reachable (New c) b) :
    (b.head.length : Int) ≤ c := by
  obtain ⟨_, hmax, hcap⟩ := reachable_tidy (New c) b hr (New_tidy c)
  have h := hcap (by simpa [New] using hc)
  rw [hmax] at h
  exact h

/-- C12 on the buffer left by `New(4)` and a write of eight bytes whose file write fails
after one byte. -/
theorem C12_memory_bound_witness :
    (0 : Int) ≤ 4 ∧
    Reachable (New 4) ⟨4, [65, 66, 67, 68], some ⟨1, [69], 1⟩, 0, 0, 0⟩ ∧
    (((Buffer.mk 4 [65, 66, 67, 68] (some ⟨1, [69], 1⟩) 0 0 0).head.length : Nat) : Int) ≤ 4 :=
  have hr : Reachable (New 4) ⟨4, [65, 66, 67, 68], some ⟨1, [69], 1⟩, 0, 0, 0⟩ :=
    Reachable.step (New 4) (Call.write [65, 66, 67, 68, 69, 70, 71, 72])
      ⟨none, none, some (1, GoError.sys 28), Except.ok 1, none⟩
      ⟨Call.write [65, 66, 67, 68, 69, 70, 71, 72], New 4,
        ⟨4, [65, 66, 67, 68], some ⟨1, [69], 1⟩, 0, 0, 0⟩, 0, some (GoError.sys 28), [],
        [FsOp.tempFile, FsOp.write 1 [69, 70, 71, 72]]⟩ Reachable.init (by decide)
  ⟨by decide, hr, C12_memory_bound 4 _ (by decide) hr⟩

/-- C13: for every `Write` that returns (does not panic), whatever the storage layer does.
Forward: (A) a failing seek to the write offset (the error of the storage layer, or
`EINVAL` for a negative offset), (B) a failing write to the existing file, (C) a failing
creation of the temporary file and (D) a failing write to the new file each make `Write`
return the count 0 and exactly the error of that operation, and the operations
performed end with the failing one, attempted once. Backward: (E) whenever `Write`
returns an error it is in one of these four situations, with count 0. -/
theorem C13_write_error_propagation (b : Buffer) (p : List Byte) (env : Env)
    (r : WriteResult) (hW : b.Write p env = some r) :
    (∀ f e, b.file = some f → b.fcurrentOffset ≠ b.fwriteOffset →
        (env.seekErr = some e ∨
          (env.seekErr = none ∧ b.fwriteOffset < 0 ∧ e = GoError.sys 22)) →
        r.n = 0 ∧ r.err = some e ∧ r.ops = [FsOp.seek f.name b.fwriteOffset]) ∧
    (∀ f k e, b.file = some f →
        (b.fcurrentOffset = b.fwriteOffset ∨ (env.seekErr = none ∧ 0 ≤ b.fwriteOffset)) →
        env.writeFault = some (k, e) →
        r.n = 0 ∧ r.err = some e ∧
        r.ops = (if b.fcurrentOffset = b.fwriteOffset then [FsOp.write f.name p]
          else [FsOp.seek f.name b.fwriteOffset, FsOp.write f.name p])) ∧
    (∀ e, b.file = none → ¬ ((b.head.length : Int) + p.length ≤ b.max) →
        env.tempFile = Except.error e →
        r.n = 0 ∧ r.err = some e ∧ r.ops = [FsOp.tempFile]) ∧
    (∀ name k e, b.file = none → ¬ ((b.head.length : Int) + p.length ≤ b.max) →
        env.tempFile = Except.ok name → env.writeFault = some (k, e) →
        r.n = 0 ∧ r.err = some e ∧
        r.ops = [FsOp.tempFile, FsOp.write name (p.drop (b.max - b.head.length).toNat)]) ∧
    (∀ e, r.err = some e →
      r.n = 0 ∧
      ((∃ f, b.file = some f ∧ b.fcurrentOffset ≠ b.fwriteOffset ∧
          (env.seekErr = some e ∨
            (env.seekErr = none ∧ b.fwriteOffset < 0 ∧ e = GoError.sys 22)) ∧
          r.ops = [FsOp.seek f.name b.fwriteOffset]) ∨
       (∃ f k, b.file = some f ∧ env.writeFault = some (k, e) ∧
          (r.ops = [FsOp.write f.name p] ∨
            r.ops = [FsOp.seek f.name b.fwriteOffset, FsOp.write f.name p])) ∨
       (b.file = none ∧ env.tempFile = Except.error e ∧ r.ops = [FsOp.tempFile]) ∨
       (∃ name k, b.file = none ∧ env.tempFile = Except.ok name ∧
          env.writeFault = some (k, e) ∧
          r.ops = [FsOp.tempFile,
            FsOp.write name (p.drop (b.max - b.head.length).toNat)]))) := by
  have hover : b.file = none → ¬ ((b.head.length : Int) + p.length ≤ b.max) →
      ∃ k : Nat, (k : Int) = b.max - b.head.length ∧ k < p.length ∧
        (b.max - (b.head.length : Int)).toNat = k := by
    intro hf hfit
    by_cases hb : b.max - (b.head.length : Int) < 0
    · simp [Buffer.Write, hf, hfit, hb] at hW
    · obtain ⟨k, hk⟩ := Int.eq_ofNat_of_zero_le (show 0 ≤ b.max - b.head.length by omega)
      exact ⟨k, hk.symm, by omega, by omega⟩
  refine ⟨?_, ?_, ?_, ?_, ?_⟩
  · intro f e hf hne hse
    rw [Write_seek_fails b f p env e hf hne hse] at hW
    simp only [Option.some.injEq] at hW
    subst hW
    exact ⟨rfl, rfl, rfl⟩
  · intro f k e hf hseek hwf
    obtain ⟨r1, hW1, h1, h2, h3, _⟩ := Write_file_write_fails b f p env k e hf hseek hwf
    rw [hW1] at hW
    simp only [Option.some.injEq] at hW
    subst hW
    exact ⟨h1, h2, h3⟩
  · intro e hf hfit htf
    obtain ⟨k, hk, hlt, _⟩ := hover hf hfit
    obtain ⟨r1, hW1, _, _, hA, _, _⟩ := Write_overflow_any b p env k hf hk hlt
    rw [hW1] at hW
    simp only [Option.some.injEq] at hW
    subst hW
    obtain ⟨g1, g2, _, g4⟩ := hA e htf
    exact ⟨g1, g2, g4⟩
  · intro name m e hf hfit htf hwf
    obtain ⟨k, hk, hlt, hk3⟩ := hover hf hfit
    obtain ⟨r1, hW1, _, _, _, hB, _⟩ := Write_overflow_any b p env k hf hk hlt
    rw [hW1] at hW
    simp only [Option.some.injEq] at hW
    subst hW
    obtain ⟨g1, g2, _, g4⟩ := hB name m e htf hwf
    rw [hk3]
    exact ⟨g1, g2, g4⟩
  · intro e herr
    cases hf : b.file with
    | some f =>
      rcases env with ⟨se, rf, wf, tf, re⟩
      rcases b with ⟨mx, head, file, fr, fw, fc⟩
      simp only at hf
      subst hf
      by_cases hc : fc = fw <;> rcases se with _ | e1 <;> rcases wf with _ | ⟨k, e2⟩ <;>
        by_cases hn : fw < 0 <;>
        simp [Buffer.Write, fileSeek, fileWrite, hc, hn] at hW <;>
        subst hW <;> simp at herr <;> subst herr <;> simp [hc, hn]
    | none =>
      by_cases hfit : (b.head.length : Int) + p.length ≤ b.max
      · rw [Write_fits b p env hf hfit] at hW
        simp only [Option.some.injEq] at hW
        subst hW
        simp at herr
      · obtain ⟨k, hk, hlt, hk3⟩ := hover hf hfit
        obtain ⟨r1, hW1, _, _, hA, hB, _⟩ := Write_overflow_any b p env k hf hk hlt
        rw [hW1] at hW
        simp only [Option.some.injEq] at hW
        subst hW
        rw [hk3]
        rcases htf : env.tempFile with e1 | name
        · obtain ⟨g1, g2, _, g4⟩ := hA e1 htf
          rw [g2] at herr
          simp only [Option.some.injEq] at herr
          subst herr
          exact ⟨g1, Or.inr (Or.inr (Or.inl ⟨rfl, rfl, g4⟩))⟩
        · rcases hwf : env.writeFault with _ | ⟨m, e2⟩
          · have hok := Write_overflow_ok b p env name k hf hk hlt htf hwf
            rw [hW1] at hok
            simp only [Option.some.injEq] at hok
            subst hok
            simp at herr
          · obtain ⟨g1, g2, _, g4⟩ := hB name m e2 htf hwf
            rw [g2] at herr
            simp only [Option.some.injEq] at herr
            subst herr
            exact ⟨g1, Or.inr (Or.inr (Or.inr ⟨name, m, rfl, rfl, rfl, g4⟩))⟩

/-- C13 in the four situations: (A) a spilled buffer whose cached offset differs from the
write offset and whose seek fails; (B) a spilled buffer whose file write fails after one
byte; (C) `New(4)` and eight bytes when the temporary file cannot be created; (D) the
same when the write to the new file fails after one byte. -/
theorem C13_write_error_propagation_witness :
    ((Buffer.mk 4 [] (some ⟨1, [69, 70, 71, 72], 2⟩) 2 4 2).Write [73]
          ⟨some (GoError.sys 5), none, none, Except.ok 1, none⟩
        = some ⟨0, some (GoError.sys 5), ⟨4, [], some ⟨1, [69, 70, 71, 72], 2⟩, 2, 4, 0⟩,
            [FsOp.seek 1 4]⟩ ∧
      (WriteResult.mk 0 (some (GoError.sys 5))
          ⟨4, [], some ⟨1, [69, 70, 71, 72], 2⟩, 2, 4, 0⟩ [FsOp.seek 1 4]).n = 0) ∧
    ((Buffer.mk 4 [] (some ⟨1, [69, 70, 71, 72], 4⟩) 0 4 4).Write [73, 74]
          ⟨none, none, some (1, GoError.sys 28), Except.ok 1, none⟩
        = some ⟨0, some (GoError.sys 28),
            ⟨4, [], some ⟨1, [69, 70, 71, 72, 73], 5⟩, 0, 4, 4⟩, [FsOp.write 1 [73, 74]]⟩ ∧
      (WriteResult.mk 0 (some (GoError.sys 28))
          ⟨4, [], some ⟨1, [69, 70, 71, 72, 73], 5⟩, 0, 4, 4⟩ [FsOp.write 1 [73, 74]]).n = 0) ∧
    ((New 4).Write [65, 66, 67, 68, 69, 70, 71, 72]
          ⟨none, none, none, Except.error (GoError.sys 24), none⟩
        = some ⟨0, some (GoError.sys 24), ⟨4, [65, 66, 67, 68], none, 0, 0, 0⟩,
            [FsOp.tempFile]⟩ ∧
      (WriteResult.mk 0 (some (GoError.sys 24)) ⟨4, [65, 66, 67, 68], none, 0, 0, 0⟩
          [FsOp.tempFile]).n = 0) ∧
    ((New 4).Write [65, 66, 67, 68, 69, 70, 71, 72]
          ⟨none, none, some (1, GoError.sys 28), Except.ok 1, none⟩
        = some ⟨0, some (GoError.sys 28), ⟨4, [65, 66, 67, 68], some ⟨1, [69], 1⟩, 0, 0, 0⟩,
            [FsOp.tempFile, FsOp.write 1 [69, 70, 71, 72]]⟩ ∧
      (WriteResult.mk 0 (some (GoError.sys 28))
          ⟨4, [65, 66, 67, 68], some ⟨1, [69], 1⟩, 0, 0, 0⟩
          [FsOp.tempFile, FsOp.write 1 [69, 70, 71, 72]]).n = 0) :=
  ⟨⟨by decide,
      ((C13_write_error_propagation (Buffer.mk 4 [] (some ⟨1, [69, 70, 71, 72], 2⟩) 2 4 2) [73]
        ⟨some (GoError.sys 5), none, none, Except.ok 1, none⟩
        ⟨0, some (GoError.sys 5), ⟨4, [], some ⟨1, [69, 70, 71, 72], 2⟩, 2, 4, 0⟩,
          [FsOp.seek 1 4]⟩ (by decide)).1
        ⟨1, [69, 70, 71, 72], 2⟩ (GoError.sys 5) rfl (by decide) (Or.inl rfl)).1⟩,
    ⟨by decide,
      ((C13_write_error_propagation (Buffer.mk 4 [] (some ⟨1, [69, 70, 71, 72], 4⟩) 0 4 4)
        [73, 74] ⟨none, none, some (1, GoError.sys 28), Except.ok 1, none⟩
        ⟨0, some (GoError.sys 28), ⟨4, [], some ⟨1, [69, 70, 71, 72, 73], 5⟩, 0, 4, 4⟩,
          [FsOp.write 1 [73, 74]]⟩ (by decide)).2.1
        ⟨1, [69, 70, 71, 72], 4⟩ 1 (GoError.sys 28) rfl (Or.inl rfl) rfl).1⟩,
    ⟨by decide,
      ((C13_write_error_propagation (New 4) [65, 66, 67, 68, 69, 70, 71, 72]
        ⟨none, none, none, Except.error (GoError.sys 24), none⟩
        ⟨0, some (GoError.sys 24), ⟨4, [65, 66, 67, 68], none, 0, 0, 0⟩, [FsOp.tempFile]⟩
        (by decide)).2.2.1 (GoError.sys 24) rfl (by decide) rfl).1⟩,
    ⟨by decide,
      ((C13_write_error_propagation (New 4) [65, 66, 67, 68, 69, 70, 71, 72]
        ⟨none, none, some (1, GoError.sys 28), Except.ok 1, none⟩
        ⟨0, some (GoError.sys 28), ⟨4, [65, 66, 67, 68], some ⟨1, [69], 1⟩, 0, 0, 0⟩,
          [FsOp.tempFile, FsOp.write 1 [69, 70, 71, 72]]⟩
        (by decide)).2.2.2.1 1 1 (GoError.sys 28) rfl (by decide) rfl rfl).1⟩⟩

/-- C14: if a file exists before a `Read` or a `Write`, then after the call, whatever the
storage layer does, the buffer still refers to the same file (the file of that name),
and the call created no temporary file; so `Write` creates a temporary file only when
none exists, and neither call takes a spilled buffer back to memory-only. `Close` with
a succeeding deletion does. -/
theorem C14_disk_segment_persists (b : Buffer) (f : OSFile) (p : List Byte) (env : Env)
    (hf : b.file = some f) :
    (∃ f1, (b.Read p env).buf.file = some f1 ∧ f1.name = f.name) ∧
    FsOp.tempFile ∉ (b.Read p env).ops ∧
    (∃ r f1, b.Write p env = some r ∧ r.buf.file = some f1 ∧ f1.name = f.name ∧
      FsOp.tempFile ∉ r.ops) ∧
    (env.removeErr = none → (b.Close env).buf.file = none) := by
  obtain ⟨⟨f1, h1, h2, _⟩, h3, _⟩ := Read_file_kept b f p env hf
  refine ⟨⟨f1, h1, h2⟩, h3, Write_file_kept b f p env hf, ?_⟩
  intro hre
  simp [Buffer.Close, hf, osRemove, hre]

/-- C14 on a spilled buffer with a drained head. -/
theorem C14_disk_segment_persists_witness :
    (Buffer.mk 4 [] (some ⟨1, [69, 70, 71, 72], 4⟩) 0 4 4).file
      = some ⟨1, [69, 70, 71, 72], 4⟩ ∧
    ((Buffer.mk 4 [] (some ⟨1, [69, 70, 71, 72], 4⟩) 0 4 4).Read [0, 0] (Env.ok 2)).buf.file
      = some ⟨1, [69, 70, 71, 72], 2⟩ ∧
    ∃ f1, ((Buffer.mk 4 [] (some ⟨1, [69, 70, 71, 72], 4⟩) 0 4 4).Read [0, 0]
      (Env.ok 2)).buf.file = some f1 ∧ f1.name = 1 :=
  ⟨rfl, by decide,
    (C14_disk_segment_persists (Buffer.mk 4 [] (some ⟨1, [69, 70, 71, 72], 4⟩) 0 4 4)
      ⟨1, [69, 70, 71, 72], 4⟩ [0, 0] (Env.ok 2) rfl).1⟩

/-- C15: on a buffer without a file, `Close` returns nil, performs no file operation,
empties the head and changes nothing else (no file, the three offsets as they were),
whatever the storage layer would do; a second `Close` returns nil again and leaves the
same buffer. -/
theorem C15_close_memory_only (b : Buffer) (env env2 : Env) (hf : b.file = none) :
    (b.Close env).err = none ∧ (b.Close env).ops = [] ∧
    (b.Close env).buf = { b with head := [] } ∧
    (b.Close env).buf.file = none ∧
    (b.Close env).buf.freadOffset = b.freadOffset ∧
    (b.Close env).buf.fwriteOffset = b.fwriteOffset ∧
    (b.Close env).buf.fcurrentOffset = b.fcurrentOffset ∧
    ((b.Close env).buf.Close env2) = b.Close env := by
  simp [Buffer.Close, hf]

/-- C15 on a buffer holding two bytes in memory. -/
theorem C15_close_memory_only_witness :
    (Buffer.mk 4 [65, 66] none 0 0 0).file = none ∧
    (Buffer.mk 4 [65, 66] none 0 0 0).Close (Env.ok 1) = ⟨none, New 4, []⟩ ∧
    ((Buffer.mk 4 [65, 66] none 0 0 0).Close (Env.ok 1)).err = none :=
  ⟨rfl, by decide,
    (C15_close_memory_only (Buffer.mk 4 [65, 66] none 0 0 0) (Env.ok 1) (Env.ok 1) rfl).1⟩

/-- C16: after every sequence of `Write`, `Read` and `Close` calls on `New c`, `c ≥ 0`,
in which every file operation succeeds, the run has not panicked, and if a file
exists then its length is the write offset and its contents are exactly the overflow
stream: the tail `p[boundary:]` of the write that created the file followed by every
slice written afterwards, in write order, however reads (and their seeks) were
interleaved. -/
theorem C16_file_is_overflow_stream (c : Int) (l : List (Call × Env)) (hc : 0 ≤ c)
    (hl : AllEnvSucceed l) :
    ∃ steps b, exec (New c) l = some (steps, b) ∧
      ∀ f, b.file = some f →
        (f.data.length : Int) = b.fwriteOffset ∧ f.data = spillStream [] steps := by
  obtain ⟨steps, b, hex, hcb, _, hsp⟩ :=
    exec_spill l (New c) [] (New_coherent c hc) rfl hl
  refine ⟨steps, b, hex, fun f hf => ?_⟩
  obtain ⟨_, hrest⟩ := hcb
  rw [hf] at hrest
  refine ⟨hrest.1, ?_⟩
  rw [← hsp]
  simp [fileData, hf]

/-- C16 at capacity 4: write `ABCDEF`, read three bytes, write `GH`, read four bytes
(one from the head is left, so this read takes it), read two bytes from the file, write
`IJ`: the file holds `EFGHIJ`. -/
theorem C16_file_is_overflow_stream_witness :
    (0 : Int) ≤ 4 ∧
    AllEnvSucceed [(Call.write [65, 66, 67, 68, 69, 70], Env.ok 1),
      (Call.read [0, 0, 0], Env.ok 1), (Call.write [71, 72], Env.ok 1),
      (Call.read [0, 0, 0, 0], Env.ok 1), (Call.read [0, 0], Env.ok 1),
      (Call.write [73, 74], Env.ok 1)] ∧
    (exec (New 4) [(Call.write [65, 66, 67, 68, 69, 70], Env.ok 1),
        (Call.read [0, 0, 0], Env.ok 1), (Call.write [71, 72], Env.ok 1),
        (Call.read [0, 0, 0, 0], Env.ok 1), (Call.read [0, 0], Env.ok 1),
        (Call.write [73, 74], Env.ok 1)]).map (fun r => (spillStream [] r.1, r.2))
      = some ([69, 70, 71, 72, 73, 74],
          ⟨4, [], some ⟨1, [69, 70, 71, 72, 73, 74], 6⟩, 2, 6, 6⟩) ∧
    ∃ steps b, exec (New 4) [(Call.write [65, 66, 67, 68, 69, 70], Env.ok 1),
        (Call.read [0, 0, 0], Env.ok 1), (Call.write [71, 72], Env.ok 1),
        (Call.read [0, 0, 0, 0], Env.ok 1), (Call.read [0, 0], Env.ok 1),
        (Call.write [73, 74], Env.ok 1)] = some (steps, b) ∧
      ∀ f, b.file = some f →
        (f.data.length : Int) = b.fwriteOffset ∧ f.data = spillStream [] steps :=
  have h : AllEnvSucceed [(Call.write [65, 66, 67, 68, 69, 70], Env.ok 1),
      (Call.read [0, 0, 0], Env.ok 1), (Call.write [71, 72], Env.ok 1),
      (Call.read [0, 0, 0, 0], Env.ok 1), (Call.read [0, 0], Env.ok 1),
      (Call.write [73, 74], Env.ok 1)] := by
    intro ce hce
    simp only [List.mem_cons, List.mem_singleton, List.not_mem_nil, or_false] at hce
    rcases hce with rfl | rfl | rfl | rfl | rfl | rfl <;> exact ⟨1, rfl⟩
  ⟨by decide, h, by decide, C16_file_is_overflow_stream 4 _ (by decide) h⟩

/-- C17: for every `c` and every sequence of `Write`, `Read` and `Close` calls on `New c`
in which every file operation succeeds and no call panics: in the state reached, if a
file exists, the cached offset `fcurrentOffset` is the position of the file; and the
buffer that seeks before every file read and write goes through the same run: call by
call the same count, error, bytes received and buffer (file contents and position
included), ending in the same state. -/
theorem C17_cursor_cache_coherent (c : Int) (l : List (Call × Env)) (steps : List Step)
    (b : Buffer) (hl : AllEnvSucceed l) (hex : exec (New c) l = some (steps, b)) :
    (∀ f, b.file = some f → (f.pos : Int) = b.fcurrentOffset) ∧
    ∃ steps2, execSeeking (New c) l = some (steps2, b) ∧
      steps.map Step.outcome = steps2.map Step.outcome := by
  by_cases hc : 0 ≤ c
  · obtain ⟨st, st2, b1, h1, h2, h3, h4⟩ := exec_seeking_agrees l (New c) (New_coherent c hc) hl
    rw [hex] at h1
    simp only [Option.some.injEq, Prod.mk.injEq] at h1
    obtain ⟨rfl, rfl⟩ := h1
    refine ⟨fun f hf => ?_, st2, h2, h3⟩
    obtain ⟨_, hrest⟩ := h4
    rw [hf] at hrest
    exact hrest.2.1
  · obtain ⟨g1, g2⟩ := exec_negative c (by omega) l steps b hex
    refine ⟨fun f hf => ?_, steps, g2, rfl⟩
    rw [g1] at hf
    simp [New] at hf

/-- C17 at capacity 2: write `ABCD`, read two bytes (the head), write `EF` (the cached
offset already equals the write offset: no seek), read two bytes (seek to 0), write
`GH` (seek back to 4). -/
theorem C17_cursor_cache_coherent_witness :
    AllEnvSucceed [(Call.write [65, 66, 67, 68], Env.ok 1), (Call.read [0, 0], Env.ok 1),
      (Call.write [69, 70], Env.ok 1), (Call.read [0, 0], Env.ok 1),
      (Call.write [71, 72], Env.ok 1)] ∧
    (exec (New 2) [(Call.write [65, 66, 67, 68], Env.ok 1), (Call.read [0, 0], Env.ok 1),
        (Call.write [69, 70], Env.ok 1), (Call.read [0, 0], Env.ok 1),
        (Call.write [71, 72], Env.ok 1)]).map (fun r => (r.1.map Step.ops, r.2))
      = some ([[FsOp.tempFile, FsOp.write 1 [67, 68]], [], [FsOp.write 1 [69, 70]],
          [FsOp.seek 1 0, FsOp.read 1 2], [FsOp.seek 1 4, FsOp.write 1 [71, 72]]],
          ⟨2, [], some ⟨1, [67, 68, 69, 70, 71, 72], 6⟩, 2, 6, 6⟩) ∧
    (∀ f, (Buffer.mk 2 [] (some ⟨1, [67, 68, 69, 70, 71, 72], 6⟩) 2 6 6).file = some f →
      (f.pos : Int) = (Buffer.mk 2 [] (some ⟨1, [67, 68, 69, 70, 71, 72], 6⟩) 2 6 6).fcurrentOffset)
    :=
  have h : AllEnvSucceed [(Call.write [65, 66, 67, 68], Env.ok 1),
      (Call.read [0, 0], Env.ok 1), (Call.write [69, 70], Env.ok 1),
      (Call.read [0, 0], Env.ok 1), (Call.write [71, 72], Env.ok 1)] := by
    intro ce hce
    simp only [List.mem_cons, List.mem_singleton, List.not_mem_nil, or_false] at hce
    rcases hce with rfl | rfl | rfl | rfl | rfl <;> exact ⟨1, rfl⟩
  ⟨h, by decide,
    (C17_cursor_cache_coherent 2 _
      [⟨Call.write [65, 66, 67, 68], New 2, ⟨2, [65, 66], some ⟨1, [67, 68], 2⟩, 0, 2, 2⟩,
          4, none, [], [FsOp.tempFile, FsOp.write 1 [67, 68]]⟩,
        ⟨Call.read [0, 0], ⟨2, [65, 66], some ⟨1, [67, 68], 2⟩, 0, 2, 2⟩,
          ⟨2, [], some ⟨1, [67, 68], 2⟩, 0, 2, 2⟩, 2, none, [65, 66], []⟩,
        ⟨Call.write [69, 70], ⟨2, [], some ⟨1, [67, 68], 2⟩, 0, 2, 2⟩,
          ⟨2, [], some ⟨1, [67, 68, 69, 70], 4⟩, 0, 4, 4⟩, 2, none, [],
          [FsOp.write 1 [69, 70]]⟩,
        ⟨Call.read [0, 0], ⟨2, [], some ⟨1, [67, 68, 69, 70], 4⟩, 0, 4, 4⟩,
          ⟨2, [], some ⟨1, [67, 68, 69, 70], 2⟩, 2, 4, 2⟩, 2, none, [67, 68],
          [FsOp.seek 1 0, FsOp.read 1 2]⟩,
        ⟨Call.write [71, 72], ⟨2, [], some ⟨1, [67, 68, 69, 70], 2⟩, 2, 4, 2⟩,
          ⟨2, [], some ⟨1, [67, 68, 69, 70, 71, 72], 6⟩, 2, 6, 6⟩, 2, none, [],
          [FsOp.seek 1 4, FsOp.write 1 [71, 72]]⟩]
      ⟨2, [], some ⟨1, [67, 68, 69, 70, 71, 72], 6⟩, 2, 6, 6⟩ h (by decide)).1⟩

/-- C18: whenever the head holds `h > 0` bytes, `Read(p)` returns `(min (len p) h, nil)`
for every `p` (also the empty one), copies the first `min (len p) h` bytes of the head
to the front of `p`, removes them from the head, performs no file operation and leaves
the file and the three offsets as they were, whatever the file holds and whatever the
storage layer would do; the error of the head read is never `io.EOF`, so the test
`err == io.EOF && b.file != nil` never succeeds. -/
theorem C18_head_first_read (b : Buffer) (p : List Byte) (env : Env)
    (hh : 0 < b.head.length) :
    b.Read p env = ⟨min p.length b.head.length, none,
      b.head.take (min p.length b.head.length) ++ p.drop (min p.length b.head.length),
      { b with head := b.head.drop (min p.length b.head.length) }, []⟩ ∧
    ((b.Read p env).p.take (b.Read p env).n = b.head.take (min p.length b.head.length)) ∧
    (b.Read p env).buf.file = b.file ∧
    (b.Read p env).buf.freadOffset = b.freadOffset ∧
    (b.Read p env).buf.fwriteOffset = b.fwriteOffset ∧
    (b.Read p env).buf.fcurrentOffset = b.fcurrentOffset ∧
    (b.Read p env).err ≠ some GoError.EOF ∧
    (bytesRead b.head p).2.1 ≠ some GoError.EOF := by
  have h0 : b.head.length ≠ 0 := by omega
  rw [Read_head b p env hh]
  refine ⟨rfl, ?_, rfl, rfl, rfl, rfl, by simp, by simp [bytesRead, h0]⟩
  simp only []
  rw [List.take_append_of_le_length (by simp), List.take_of_length_le (by simp)]

/-- C18 on a spilled buffer with `CD` in the head and `EFGH` unread in the file: a read
into six bytes returns the two head bytes only. -/
theorem C18_head_first_read_witness :
    0 < (Buffer.mk 4 [67, 68] (some ⟨1, [69, 70, 71, 72], 4⟩) 0 4 4).head.length ∧
    (Buffer.mk 4 [67, 68] (some ⟨1, [69, 70, 71, 72], 4⟩) 0 4 4).Read [0, 0, 0, 0, 0, 0]
        (Env.ok 1)
      = ⟨2, none, [67, 68, 0, 0, 0, 0], ⟨4, [], some ⟨1, [69, 70, 71, 72], 4⟩, 0, 4, 4⟩, []⟩ ∧
    ((Buffer.mk 4 [67, 68] (some ⟨1, [69, 70, 71, 72], 4⟩) 0 4 4).Read [0, 0, 0, 0, 0, 0]
        (Env.ok 1)).err ≠ some GoError.EOF :=
  ⟨by decide, by decide,
    (C18_head_first_read (Buffer.mk 4 [67, 68] (some ⟨1, [69, 70, 71, 72], 4⟩) 0 4 4)
      [0, 0, 0, 0, 0, 0] (Env.ok 1) (by decide)).2.2.2.2.2.2.1⟩

/-- C19: in every memory-only state with `h = len head < max < h + len p`, when the
creation of the temporary file fails, or the write to the new file fails, `Write`
returns `(0, err)` although it has appended the `max - h > 0` bytes `p[:max-h]` to the
head; the head is left that way, so the count 0 understates what was stored, and the
next `Read` returns those bytes (after the ones the head held before) like any other
head bytes. -/
theorem C19_stranded_head_bytes (b : Buffer) (p d : List Byte) (env env2 : Env)
    (hmem : MemoryOnly b) (hlt : (b.head.length : Int) < b.max)
    (hover : b.max < (b.head.length : Int) + p.length)
    (hfail : (∃ e, env.tempFile = Except.error e) ∨ (∃ k e, env.writeFault = some (k, e))) :
    ∃ r e, b.Write p env = some r ∧ r.n = 0 ∧ r.err = some e ∧
      r.buf.head = b.head ++ p.take (b.max - b.head.length).toNat ∧
      b.head.length < r.buf.head.length ∧ (r.buf.head.length : Int) = b.max ∧
      (r.buf.Read d env2).err = none ∧
      (r.buf.Read d env2).n = min d.length r.buf.head.length ∧
      (r.buf.Read d env2).p.take (r.buf.Read d env2).n =
        (b.head ++ p.take (b.max - b.head.length).toNat).take (min d.length r.buf.head.length)
      := by
  obtain ⟨hf, _, _, _⟩ := hmem
  obtain ⟨k, hk⟩ := Int.eq_ofNat_of_zero_le (show 0 ≤ b.max - b.head.length by omega)
  have hk3 : (b.max - (b.head.length : Int)).toNat = k := by omega
  rw [hk3]
  obtain ⟨r, hW, hhead, _, hA, hB, _⟩ := Write_overflow_any b p env k hf hk.symm (by omega)
  have hlen : r.buf.head.length = b.head.length + k := by
    rw [hhead, List.length_append, List.length_take]; omega
  have hpos : 0 < r.buf.head.length := by omega
  have hread := Read_head r.buf d env2 hpos
  have key : ∃ e, r.n = 0 ∧ r.err = some e := by
    rcases htf : env.tempFile with e1 | name
    · exact ⟨e1, (hA e1 htf).1, (hA e1 htf).2.1⟩
    · rcases hfail with ⟨e1, he1⟩ | ⟨m, e2, hwf⟩
      · rw [htf] at he1; simp at he1
      · exact ⟨e2, (hB name m e2 htf hwf).1, (hB name m e2 htf hwf).2.1⟩
  obtain ⟨e, hn, he⟩ := key
  refine ⟨r, e, hW, hn, he, hhead, by omega, by rw [hlen]; push_cast; omega, ?_, ?_, ?_⟩
  · rw [hread]
  · rw [hread]
  · rw [hread]
    simp only []
    rw [List.take_append_of_le_length (by simp), List.take_of_length_le (by simp), hhead]

/-- C19 at capacity 4 with `AB` in the head: `Write("CDEFGH")` with a failing creation
of the temporary file returns `(0, err)` and leaves `ABCD` in the head. -/
theorem C19_stranded_head_bytes_witness :
    MemoryOnly (Buffer.mk 4 [65, 66] none 0 0 0) ∧
    (((Buffer.mk 4 [65, 66] none 0 0 0).head.length : Nat) : Int)
      < (Buffer.mk 4 [65, 66] none 0 0 0).max ∧
    (Buffer.mk 4 [65, 66] none 0 0 0).Write [67, 68, 69, 70, 71, 72]
        ⟨none, none, none, Except.error (GoError.sys 24), none⟩
      = some ⟨0, some (GoError.sys 24), ⟨4, [65, 66, 67, 68], none, 0, 0, 0⟩,
          [FsOp.tempFile]⟩ ∧
    ∃ r e, (Buffer.mk 4 [65, 66] none 0 0 0).Write [67, 68, 69, 70, 71, 72]
        ⟨none, none, none, Except.error (GoError.sys 24), none⟩ = some r ∧
      r.n = 0 ∧ r.err = some e :=
  ⟨⟨rfl, rfl, rfl, rfl⟩, by decide, by decide,
    (C19_stranded_head_bytes (Buffer.mk 4 [65, 66] none 0 0 0) [67, 68, 69, 70, 71, 72]
      [0, 0, 0, 0] ⟨none, none, none, Except.error (GoError.sys 24), none⟩ (Env.ok 1)
      ⟨rfl, rfl, rfl, rfl⟩ (by decide) (by decide) (Or.inl ⟨_, rfl⟩)).imp
      (fun _ h => h.imp (fun _ g => ⟨g.1, g.2.1, g.2.2.1⟩))⟩

/-- C20: in every state reachable from `New c`, `c ≥ 0`, whatever the storage layer did
on the way, for every `p` that takes the overflow branch of `Write` (no file, and
`len head + len p > max`), the boundary `max - len head` satisfies
`0 ≤ boundary < len p`; so the call does not panic, whatever the storage layer does,
`p[:boundary]` has `boundary` bytes and the tail `p[boundary:]` is not empty. On
`New(-1)` every `Write` takes this branch with the boundary `-1` and panics. -/
theorem C20_split_index_in_range (c : Int) (b : Buffer) (p : List Byte) (env : Env)
    (hc : 0 ≤ c) (hr : Reachable (New c) b) (hf : b.file = none)
    (hover : b.max < (b.head.length : Int) + p.length) :
    b.max = c ∧ 0 ≤ b.max - b.head.length ∧ b.max - b.head.length < p.length ∧
    (∃ r, b.Write p env = some r) ∧
    (p.take (b.max - b.head.length).toNat).length = (b.max - b.head.length).toNat ∧
    p.drop (b.max - b.head.length).toNat ≠ [] ∧
    (∀ (p2 : List Byte) (env2 : Env),
      (New (-1)).max - ((New (-1)).head.length : Int) = -1 ∧
      (New (-1)).Write p2 env2 = none) := by
  obtain ⟨_, hmax, hcap⟩ := reachable_tidy (New c) b hr (New_tidy c)
  have hmx : b.max = c := hmax
  have h := hcap (by simpa [New] using hc)
  obtain ⟨k, hk⟩ := Int.eq_ofNat_of_zero_le (show 0 ≤ b.max - b.head.length by omega)
  have hk3 : (b.max - (b.head.length : Int)).toNat = k := by omega
  obtain ⟨r, hW, _⟩ := Write_overflow_any b p env k hf hk.symm (by omega)
  refine ⟨hmx, by omega, by omega, ⟨r, hW⟩, ?_, ?_, ?_⟩
  · rw [hk3, List.length_take]; omega
  · rw [hk3]
    intro hnil
    have := congrArg List.length hnil
    simp only [List.length_drop, List.length_nil] at this
    omega
  · intro p2 env2
    refine ⟨by simp [New], ?_⟩
    simp [Buffer.Write, New]
    omega

/-- C20 on `New(4)` with `AB` in the head and a write of four bytes. -/
theorem C20_split_index_in_range_witness :
    (0 : Int) ≤ 4 ∧ Reachable (New 4) ⟨4, [65, 66], none, 0, 0, 0⟩ ∧
    (Buffer.mk 4 [65, 66] none 0 0 0).file = none ∧
    (Buffer.mk 4 [65, 66] none 0 0 0).max
      < (((Buffer.mk 4 [65, 66] none 0 0 0).head.length : Nat) : Int)
        + (([67, 68, 69, 70] : List Byte).length : Nat) ∧
    (0 : Int) ≤ (Buffer.mk 4 [65, 66] none 0 0 0).max
      - (((Buffer.mk 4 [65, 66] none 0 0 0).head.length : Nat) : Int) :=
  have hr : Reachable (New 4) ⟨4, [65, 66], none, 0, 0, 0⟩ :=
    Reachable.step (New 4) (Call.write [65, 66]) (Env.ok 1)
      ⟨Call.write [65, 66], New 4, ⟨4, [65, 66], none, 0, 0, 0⟩, 2, none, [], []⟩
      Reachable.init (by decide)
  ⟨by decide, hr, rfl, by decide,
    (C20_split_index_in_range 4 _ [67, 68, 69, 70] (Env.ok 1) (by decide) hr rfl
      (by decide)).2.1⟩

end DiskBuffer
